import Mathlib

/-!
CPU_Renderer: a shallow embedding of `CPURenderer.cpp`

The renderer state and every operation of `src/src/CPURenderer.cpp` that the
properties below talk about are translated function by function.

Conventions of the embedding
* `float` values are rationals (`ℚ`).  The arithmetic of the transform chain is
  carried out exactly.  In `DrawLine` every float operation whose result can
  differ from the exact one is rounded to the nearest `float` (`roundF32`, IEEE
  binary32, ties to even): the four subtractions and the conversion
  `int → float` in the loop condition; the comparisons are exact, as they are
  in float.  The two depth constants of `Draw` are rounded as well.
* `int` values are mathematical integers (`Int`); signed overflow is undefined
  behaviour in C++ and is not modelled.  The conversion `float → int` truncates
  towards zero (`truncToInt`).
* `unsigned int` values are natural numbers reduced modulo `2 ^ 32`
  (`UINT_MODULUS`), which is where the handle counter wraps.
* `std::unordered_map` is a function into `Option`; `operator[]` on a missing
  key inserts the value-initialised element and returns it.
* Division by zero is `0` in `ℚ`, whereas the float division of the perspective
  divide gives an infinity or a NaN, whose conversion to `int` in `DrawLine` is
  undefined behaviour.  Infinities and NaNs are not modelled: for a vertex with
  clip-space `w = 0` the endpoints recorded here are those of the rational
  division.
* An out-of-range `std::vector` access is undefined behaviour; `Draw` returns
  `none` for it.  `Draw` also returns the list of the `DrawLine` calls it made.
* The presentation part (`shader`, `UpdateTexture`, the quad) does not touch
  the state modelled here and is left out.
-/

namespace CPURenderer

/-! ## Data model -/

/-- Three float components, `glm::vec3`. -/
structure vec3 where
  x : ℚ
  y : ℚ
  z : ℚ
  deriving DecidableEq

/-- Four float components, `glm::vec4`. -/
structure vec4 where
  x : ℚ
  y : ℚ
  z : ℚ
  w : ℚ
  deriving DecidableEq

/-- Four columns, `glm::mat4` (column major, as in glm). -/
structure mat4 where
  c0 : vec4
  c1 : vec4
  c2 : vec4
  c3 : vec4
  deriving DecidableEq

/-- The vertex record stored in vertex buffers: position and RGBA colour. -/
structure Vertex where
  position : vec3
  color : vec4
  deriving DecidableEq

/-- Number of values of an `unsigned int`. -/
def UINT_MODULUS : Nat := 2 ^ 32

/-- The fields of `class CPURenderer` that the core operations read or write. -/
structure State where
  w : Int
  h : Int
  clearColor : vec4
  frameBuffer : List vec4
  bufferCount : Nat
  activeVertexBuffer : Nat
  activeIndexBuffer : Nat
  verticesMap : Nat → Option (List Vertex)
  indicesMap : Nat → Option (List Nat)
  uniformM4 : String → Option mat4

/-! ## glm arithmetic used by `Draw` -/

/-- Value-initialised `glm::vec4`. -/
def vec4.zero : vec4 := ⟨0, 0, 0, 0⟩

/-- Modelled from the spec: the value-initialised `glm::mat4` that `operator[]`
inserts for a missing uniform.  The glm library is not among the sources; the
spec says that absent keys of the uniform store read as an undefined/zero
matrix. -/
def mat4.zero : mat4 := ⟨vec4.zero, vec4.zero, vec4.zero, vec4.zero⟩

/-- The matrix `glm::mat4(1.0f)`. -/
def mat4.identity : mat4 := ⟨⟨1, 0, 0, 0⟩, ⟨0, 1, 0, 0⟩, ⟨0, 0, 1, 0⟩, ⟨0, 0, 0, 1⟩⟩

/-- Componentwise sum of two `vec4`. -/
def vec4.add (a b : vec4) : vec4 := ⟨a.x + b.x, a.y + b.y, a.z + b.z, a.w + b.w⟩

/-- Scaling of a `vec4`. -/
def vec4.smul (a : vec4) (s : ℚ) : vec4 := ⟨a.x * s, a.y * s, a.z * s, a.w * s⟩

/-- Division of a `vec4` by a scalar, `v4 / v4.w`.  For `s = 0` the components
are `0` here and NaN or an infinity in float. -/
def vec4.divScalar (a : vec4) (s : ℚ) : vec4 := ⟨a.x / s, a.y / s, a.z / s, a.w / s⟩

/-- The conversion `glm::vec3(vec4)`: the first three components. -/
def vec4.xyz (a : vec4) : vec3 := ⟨a.x, a.y, a.z⟩

/-- The constructor `glm::vec4(vec3, w)`. -/
def vec4.ofVec3 (p : vec3) (w : ℚ) : vec4 := ⟨p.x, p.y, p.z, w⟩

/-- Matrix times column vector, `m * v`. -/
def mat4.mulVec (m : mat4) (v : vec4) : vec4 :=
  ((m.c0.smul v.x).add (m.c1.smul v.y)).add ((m.c2.smul v.z).add (m.c3.smul v.w))

/-- Matrix product, `a * b`: every column of `b` is multiplied by `a`. -/
def mat4.mul (a b : mat4) : mat4 :=
  ⟨a.mulVec b.c0, a.mulVec b.c1, a.mulVec b.c2, a.mulVec b.c3⟩

/-! ## Construction -/

/-- The constructor `CPURenderer(width, height)`: `frameBuffer.resize(w * h)`
value-initialises every pixel; the other fields take their in-class initialisers. -/
def create (width height : Int) : State where
  w := width
  h := height
  clearColor := ⟨0, 0, 0, 1⟩
  frameBuffer := List.replicate (width * height).toNat vec4.zero
  bufferCount := 0
  activeVertexBuffer := 0
  activeIndexBuffer := 0
  verticesMap := fun _ => none
  indicesMap := fun _ => none
  uniformM4 := fun _ => none

/-! ## Pixel writes and the line rasterizer -/

/-- `SetPixel(x, y, color)`: guarded write at `y * w + x`. -/
def SetPixel (r : State) (x y : Int) (color : vec4) : State :=
  if x < 0 ∨ x ≥ r.w then r
  else if y < 0 ∨ y ≥ r.h then r
  else { r with frameBuffer := r.frameBuffer.set (y * r.w + x).toNat color }

/-- The conversion `float → int`: truncation towards zero. -/
def truncToInt (q : ℚ) : Int := Int.tdiv q.num q.den

/-- Rounding of a rational to the nearest integer, ties to the even one. -/
def roundHalfEven (t : ℚ) : Int :=
  if t - (⌊t⌋ : ℚ) < 1 / 2 then ⌊t⌋
  else if 1 / 2 < t - (⌊t⌋ : ℚ) then ⌊t⌋ + 1
  else if ⌊t⌋ % 2 = 0 then ⌊t⌋ else ⌊t⌋ + 1

/-- The number of binary digits of `n`, by at most `fuel` halvings (`fuel ≥ n` is
always enough). -/
def bitLength : Nat → Nat → Nat
  | 0, _ => 0
  | fuel + 1, n => if n = 0 then 0 else bitLength fuel (n / 2) + 1

/-- The binary exponent of a positive rational `q`: the `e` with
`2 ^ e ≤ q < 2 ^ (e + 1)`, found among the two candidates given by the bit lengths
of numerator and denominator. -/
def binaryExponent (q : ℚ) : Int :=
  if (2 : ℚ) ^ ((bitLength q.num.natAbs q.num.natAbs : Int) - (bitLength q.den q.den : Int)) ≤ q
  then (bitLength q.num.natAbs q.num.natAbs : Int) - (bitLength q.den q.den : Int)
  else (bitLength q.num.natAbs q.num.natAbs : Int) - (bitLength q.den q.den : Int) - 1

/-- Rounding of a non-negative rational to the nearest `float` (IEEE binary32:
24 significant bits, least exponent -126, ties to even).  Overflow to infinity,
which needs a magnitude of `2 ^ 128`, is not modelled.  Nor is underflow to zero:
the exact values this is applied to, differences of two floats and integers, are
multiples of the least positive float `2 ^ (-149)`, so they are zero or at least
that large; a smaller non-zero `q` is sent to `2 ^ (-149)`. -/
def roundMagF32 (q : ℚ) : ℚ :=
  if q = 0 then 0
  else ((max (roundHalfEven (q / (2 : ℚ) ^ (max (binaryExponent q) (-126) - 23))) 1 : Int) : ℚ) *
    (2 : ℚ) ^ (max (binaryExponent q) (-126) - 23)

/-- Rounding of a rational to the nearest `float`: the result of a float operation
whose exact result is `q`, and of the conversion `int → float`. -/
def roundF32 (q : ℚ) : ℚ := if q < 0 then -roundMagF32 (-q) else roundMagF32 q

/-- The float subtraction `a - b`. -/
def f32sub (a b : ℚ) : ℚ := roundF32 (a - b)

/-- The `for` loop of `DrawLine`.  The first argument bounds the number of
iterations; `x`, `y`, `error2` are the loop variables.  In `x <= x1` the `int`
is converted to `float`. -/
def DrawLine.loop (steep : Bool) (x1 y0 y1 : ℚ) (dx derror2 : Int) (color : vec4) :
    Nat → Int → Int → Int → State → State
  | 0, _, _, _, r => r
  | fuel + 1, x, y, error2, r =>
    if roundF32 (x : ℚ) ≤ x1 then
      let r1 := if steep then SetPixel r y x color else SetPixel r x y color
      let e := error2 + derror2
      if e > dx then
        DrawLine.loop steep x1 y0 y1 dx derror2 color fuel (x + 1)
          (y + (if y1 > y0 then 1 else -1)) (e - dx * 2) r1
      else
        DrawLine.loop steep x1 y0 y1 dx derror2 color fuel (x + 1) y e r1
    else r

/-- The endpoints after the two conditional swaps of `DrawLine`:
`(steep, x0, y0, x1, y1)`. -/
def DrawLine.prepare (p1 p2 : vec3) : Bool × ℚ × ℚ × ℚ × ℚ :=
  let x0 := p1.x
  let x1 := p2.x
  let y0 := p1.y
  let y1 := p2.y
  let steep : Bool := decide (|f32sub x0 x1| < |f32sub y0 y1|)
  let a0 := if steep then y0 else x0
  let b0 := if steep then x0 else y0
  let a1 := if steep then y1 else x1
  let b1 := if steep then x1 else y1
  if a0 > a1 then (steep, a1, b1, a0, b0) else (steep, a0, b0, a1, b1)

/-- A bound on the number of iterations of the loop
`for (int x = x0; x <= x1; x++)`: the condition fails for every `x` above
`max (2 * ⌊x1⌋ + 1) 0`, the float conversion of a positive `x` being more than
`x / 2`. -/
def DrawLine.iterations (x0 x1 : ℚ) : Nat :=
  (max (2 * ⌊x1⌋ + 1) 0 - truncToInt x0 + 1).toNat

/-- `DrawLine(p1, p2, color)`. -/
def DrawLine (r : State) (p1 p2 : vec3) (color : vec4) : State :=
  match DrawLine.prepare p1 p2 with
  | (steep, x0, y0, x1, y1) =>
    let dx : Int := truncToInt (f32sub x1 x0)
    let dy : Int := truncToInt (f32sub y1 y0)
    let derror2 : Int := |dy| * 2
    DrawLine.loop steep x1 y0 y1 dx derror2 color (DrawLine.iterations x0 x1)
      (truncToInt x0) (truncToInt y0) 0 r

/-- `Clear()`: `std::fill` of the frame buffer with the clear colour. -/
def Clear (r : State) : State :=
  { r with frameBuffer := r.frameBuffer.map (fun _ => r.clearColor) }

/-! ## Resource store and binding state -/

/-- `GenerateBuffer()`: `return ++bufferCount;` on an `unsigned int`. -/
def GenerateBuffer (r : State) : Nat × State :=
  let c := (r.bufferCount + 1) % UINT_MODULUS
  (c, { r with bufferCount := c })

/-- `BindVertexBuffer(id)`. -/
def BindVertexBuffer (r : State) (id : Nat) : State := { r with activeVertexBuffer := id }

/-- `UnbindVertexBuffer()`. -/
def UnbindVertexBuffer (r : State) : State := { r with activeVertexBuffer := 0 }

/-- `BindIndexBuffer(id)`. -/
def BindIndexBuffer (r : State) (id : Nat) : State := { r with activeIndexBuffer := id }

/-- `UnbindIndexBuffer()`. -/
def UnbindIndexBuffer (r : State) : State := { r with activeIndexBuffer := 0 }

/-- `UploadVertices(vertexData)`: returns the handle and the new state. -/
def UploadVertices (r : State) (vertexData : List Vertex) : Nat × State :=
  let (buffer, r1) := GenerateBuffer r
  let r2 := BindVertexBuffer r1 buffer
  let r3 := { r2 with
    verticesMap := Function.update r2.verticesMap r2.activeVertexBuffer (some vertexData) }
  (buffer, UnbindVertexBuffer r3)

/-- `UploadIndices(indexData)`: returns the handle and the new state. -/
def UploadIndices (r : State) (indexData : List Nat) : Nat × State :=
  let (buffer, r1) := GenerateBuffer r
  let r2 := BindIndexBuffer r1 buffer
  let r3 := { r2 with
    indicesMap := Function.update r2.indicesMap r2.activeIndexBuffer (some indexData) }
  (buffer, UnbindIndexBuffer r3)

/-- `SetUniform(s, m)`. -/
def SetUniform (r : State) (s : String) (m : mat4) : State :=
  { r with uniformM4 := Function.update r.uniformM4 s (some m) }

/-! ## The frame driver -/

/-- `std::unordered_map::operator[]`: the stored value, or the value-initialised
element `dflt`, which is then inserted under the key. -/
def mapIndex {κ α : Type} [DecidableEq κ] (m : κ → Option α) (k : κ) (dflt : α) :
    α × (κ → Option α) :=
  match m k with
  | some v => (v, m)
  | none => (dflt, Function.update m k (some dflt))

/-- The constant `float f1 = (100 - 0.1) / 2.0` of `Draw`: the float nearest to
`49.95` (the `double` intermediate rounds to the same float),
`13094093 / 262144`. -/
def depthF1 : ℚ := roundF32 ((100 - 1 / 10) / 2)

/-- The constant `float f2 = (100 + 0.1) / 2.0` of `Draw`: the float nearest to
`50.05`, `13120307 / 262144`. -/
def depthF2 : ℚ := roundF32 ((100 + 1 / 10) / 2)

/-- The viewport transform and depth remap of `Draw` (the three assignments to
`position.x`, `position.y`, `position.z`). -/
def viewport (w h : Int) (p : vec3) : vec3 :=
  ⟨1 / 2 * (w : ℚ) * (p.x + 1), 1 / 2 * (h : ℚ) * (p.y + 1), p.z * depthF1 + depthF2⟩

/-- The body of the inner loop of `Draw` for one vertex position: multiply by
`mvp`, divide by `w`, map to the viewport. -/
def transformVertex (mvp : mat4) (w h : Int) (position : vec3) : vec3 :=
  let v4 := mvp.mulVec (vec4.ofVec3 position 1)
  viewport w h (v4.divScalar v4.w).xyz

/-- One invocation of `DrawLine`, as recorded by `Draw`. -/
structure LineCall where
  p1 : vec3
  p2 : vec3
  color : vec4
  deriving DecidableEq

/-- The body of the outer loop of `Draw` for triangle `i`: the three index
reads, the three vertex reads, the transform and the three `DrawLine` calls.
`none` is an out-of-range vector access.  The calls made are returned. -/
def Draw.triangle (mvp : mat4) (vertices : List Vertex) (indices : List Nat) (i : Nat)
    (r : State) : Option (State × List LineCall) :=
  match indices[i * 3]?, indices[i * 3 + 1]?, indices[i * 3 + 2]? with
  | some i0, some i1, some i2 =>
    match vertices[i0]?, vertices[i1]?, vertices[i2]? with
    | some a, some b, some c =>
      let v0 : Vertex := { a with position := transformVertex mvp r.w r.h a.position }
      let v1 : Vertex := { b with position := transformVertex mvp r.w r.h b.position }
      let v2 : Vertex := { c with position := transformVertex mvp r.w r.h c.position }
      let r1 := DrawLine r v0.position v1.position v0.color
      let r2 := DrawLine r1 v1.position v2.position v1.color
      let r3 := DrawLine r2 v2.position v0.position v2.color
      some (r3, [⟨v0.position, v1.position, v0.color⟩, ⟨v1.position, v2.position, v1.color⟩,
        ⟨v2.position, v0.position, v2.color⟩])
    | _, _, _ => none
  | _, _, _ => none

/-- The outer loop `for (int i = 0; i < indices.size() / 3; i++)` of `Draw`.
The first argument bounds the number of iterations; the calls made so far are
accumulated in `log`. -/
def Draw.loop (mvp : mat4) (vertices : List Vertex) (indices : List Nat) :
    Nat → Nat → State → List LineCall → Option (State × List LineCall)
  | 0, _, r, log => some (r, log)
  | fuel + 1, i, r, log =>
    if i < indices.length / 3 then
      match Draw.triangle mvp vertices indices i r with
      | some (r1, calls) => Draw.loop mvp vertices indices fuel (i + 1) r1 (log ++ calls)
      | none => none
    else some (r, log)

/-- `Draw()`: the final state together with the sequence of `DrawLine`
invocations, or `none` on an out-of-range vector access. -/
def Draw (r : State) : Option (State × List LineCall) :=
  let (vertices, vm) := mapIndex r.verticesMap r.activeVertexBuffer []
  let (indices, im) := mapIndex r.indicesMap r.activeIndexBuffer []
  let (model, u1) := mapIndex r.uniformM4 "modelMatrix" mat4.zero
  let (view, u2) := mapIndex u1 "viewMatrix" mat4.zero
  let (projection, u3) := mapIndex u2 "projectionMatrix" mat4.zero
  let mvp := (projection.mul view).mul model
  Draw.loop mvp vertices indices (indices.length / 3) 0
    { r with verticesMap := vm, indicesMap := im, uniformM4 := u3 } []

/-! ## Sequences of uploads -/

/-- One upload request of either kind. -/
inductive Upload where
  | vertices (data : List Vertex)
  | indices (data : List Nat)

/-- Performs one upload of either kind. -/
def Upload.run (r : State) : Upload → Nat × State
  | .vertices data => UploadVertices r data
  | .indices data => UploadIndices r data

/-- Performs the uploads in order and collects the handles they return. -/
def runUploads : State → List Upload → List Nat × State
  | r, [] => ([], r)
  | r, u :: us =>
    let (hd, r1) := u.run r
    let (tl, r2) := runUploads r1 us
    (hd :: tl, r2)

/-! ## Observations used to state the properties -/

/-- The pixel writes requested by the `for` loop of `DrawLine`, in order: the
loop of `DrawLine.loop` with every `SetPixel(a, b, color)` replaced by the
recording of `(a, b)`. -/
def DrawLine.loopPoints (steep : Bool) (x1 y0 y1 : ℚ) (dx derror2 : Int) :
    Nat → Int → Int → Int → List (Int × Int)
  | 0, _, _, _ => []
  | fuel + 1, x, y, error2 =>
    if roundF32 (x : ℚ) ≤ x1 then
      let p : Int × Int := if steep then (y, x) else (x, y)
      let e := error2 + derror2
      if e > dx then
        p :: DrawLine.loopPoints steep x1 y0 y1 dx derror2 fuel (x + 1)
          (y + (if y1 > y0 then 1 else -1)) (e - dx * 2)
      else
        p :: DrawLine.loopPoints steep x1 y0 y1 dx derror2 fuel (x + 1) y e
    else []

/-- The pixel writes `DrawLine(p1, p2, _)` requests, in order. -/
def DrawLine.points (p1 p2 : vec3) : List (Int × Int) :=
  match DrawLine.prepare p1 p2 with
  | (steep, x0, y0, x1, y1) =>
    let dx : Int := truncToInt (f32sub x1 x0)
    let dy : Int := truncToInt (f32sub y1 y0)
    let derror2 : Int := |dy| * 2
    DrawLine.loopPoints steep x1 y0 y1 dx derror2 (DrawLine.iterations x0 x1)
      (truncToInt x0) (truncToInt y0) 0

/-- A sequence of `SetPixel` calls with one colour. -/
def setPixels (r : State) (color : vec4) (ps : List (Int × Int)) : State :=
  ps.foldl (fun s p => SetPixel s p.1 p.2 color) r

/-- A point lies in the pixel rectangle `[0,w) × [0,h)` of the renderer. -/
def insideBuffer (r : State) (p : vec3) : Prop :=
  0 ≤ p.x ∧ p.x < r.w ∧ 0 ≤ p.y ∧ p.y < r.h

/-- The vertex buffer `Draw` reads: `verticesMap[activeVertexBuffer]`. -/
def boundVertices (r : State) : List Vertex :=
  (mapIndex r.verticesMap r.activeVertexBuffer []).1

/-- The index buffer `Draw` reads: `indicesMap[activeIndexBuffer]`. -/
def boundIndices (r : State) : List Nat :=
  (mapIndex r.indicesMap r.activeIndexBuffer []).1

/-- The uniform `Draw` reads under a name: `uniformM4[name]`. -/
def readUniform (r : State) (name : String) : mat4 :=
  (mapIndex r.uniformM4 name mat4.zero).1

/-- The matrix `mvp = projection * view * model` of `Draw`. -/
def currentMvp (r : State) : mat4 :=
  ((readUniform r "projectionMatrix").mul (readUniform r "viewMatrix")).mul
    (readUniform r "modelMatrix")

/-- A sequence of `DrawLine` calls. -/
def drawLines (r : State) (calls : List LineCall) : State :=
  calls.foldl (fun s c => DrawLine s c.p1 c.p2 c.color) r

/-- The three `DrawLine` calls for a triangle with (untransformed) vertices
`a`, `b`, `c`: edges `(v0,v1)`, `(v1,v2)`, `(v2,v0)`, each in the colour of its
first endpoint. -/
def triangleEdges (mvp : mat4) (w h : Int) (a b c : Vertex) : List LineCall :=
  [⟨transformVertex mvp w h a.position, transformVertex mvp w h b.position, a.color⟩,
   ⟨transformVertex mvp w h b.position, transformVertex mvp w h c.position, b.color⟩,
   ⟨transformVertex mvp w h c.position, transformVertex mvp w h a.position, c.color⟩]

/-- The state `Draw` works on after its five `operator[]` lookups, each of
which inserts the value-initialised element when its key is missing. -/
def afterLookups (r : State) : State :=
  let vm := (mapIndex r.verticesMap r.activeVertexBuffer []).2
  let im := (mapIndex r.indicesMap r.activeIndexBuffer []).2
  let u1 := (mapIndex r.uniformM4 "modelMatrix" mat4.zero).2
  let u2 := (mapIndex u1 "viewMatrix" mat4.zero).2
  let u3 := (mapIndex u2 "projectionMatrix" mat4.zero).2
  { r with verticesMap := vm, indicesMap := im, uniformM4 := u3 }

/-- Opaque red. -/
def red : vec4 := ⟨1, 0, 0, 1⟩

/-- Opaque green. -/
def green : vec4 := ⟨0, 1, 0, 1⟩

/-- Opaque blue. -/
def blue : vec4 := ⟨0, 0, 1, 1⟩

/-- The three vertices of the end-to-end scenario. -/
def scenarioVertices : List Vertex :=
  [⟨⟨0, 1 / 2, 0⟩, red⟩, ⟨⟨-1 / 2, -1 / 2, 0⟩, green⟩, ⟨⟨1 / 2, -1 / 2, 0⟩, blue⟩]

/-- The end-to-end scenario up to the call of `Draw`: a 100x100 renderer is
created and cleared, the triangle and its indices are uploaded, the three
matrices are set to the identity and both buffers are bound. -/
def scenario : State :=
  let r0 := Clear (create 100 100)
  let up1 := UploadVertices r0 scenarioVertices
  let up2 := UploadIndices up1.2 [0, 1, 2]
  let r3 := SetUniform up2.2 "modelMatrix" mat4.identity
  let r4 := SetUniform r3 "viewMatrix" mat4.identity
  let r5 := SetUniform r4 "projectionMatrix" mat4.identity
  BindIndexBuffer (BindVertexBuffer r5 up1.1) up2.1

/-- One call of the upload and binding API. -/
inductive Op where
  | uploadVertices (data : List Vertex)
  | uploadIndices (data : List Nat)
  | bindVertexBuffer (id : Nat)
  | unbindVertexBuffer
  | bindIndexBuffer (id : Nat)
  | unbindIndexBuffer

/-- Performs one call of the upload and binding API.  The second component
collects the handles the uploads have returned so far. -/
def Op.run : State × List Nat → Op → State × List Nat
  | (r, hs), .uploadVertices data => ((UploadVertices r data).2, hs ++ [(UploadVertices r data).1])
  | (r, hs), .uploadIndices data => ((UploadIndices r data).2, hs ++ [(UploadIndices r data).1])
  | (r, hs), .bindVertexBuffer id => (BindVertexBuffer r id, hs)
  | (r, hs), .unbindVertexBuffer => (UnbindVertexBuffer r, hs)
  | (r, hs), .bindIndexBuffer id => (BindIndexBuffer r id, hs)
  | (r, hs), .unbindIndexBuffer => (UnbindIndexBuffer r, hs)

/-- Performs the calls in order, from a state in which no handle has been
returned yet. -/
def runOps (r : State) (ops : List Op) : State × List Nat :=
  ops.foldl Op.run (r, [])

/-- The argument of a bind call is zero or one of the handles `hs`; the other
calls pass. -/
def Op.bindsKnown (hs : List Nat) : Op → Bool
  | .bindVertexBuffer id => decide (id = 0 ∨ id ∈ hs)
  | .bindIndexBuffer id => decide (id = 0 ∨ id ∈ hs)
  | _ => true

/-- Every bind call of the sequence is given zero or a handle that an earlier
upload of the sequence returned. -/
def bindsKnown : State × List Nat → List Op → Bool
  | _, [] => true
  | s, op :: ops => op.bindsKnown s.2 && bindsKnown (Op.run s op) ops

/-- A binding slot value is zero or one of the handles `hs`. -/
def slotKnown (hs : List Nat) (slot : Nat) : Prop := slot = 0 ∨ slot ∈ hs

/-- The coordinate of a written pixel along the stepping axis of the walk. -/
def majorOf (steep : Bool) (p : Int × Int) : Int := if steep then p.2 else p.1

/-- The coordinate of a written pixel along the other axis of the walk. -/
def minorOf (steep : Bool) (p : Int × Int) : Int := if steep then p.1 else p.2

/-- The pixel written for walk coordinates `(major, minor)`: `SetPixel(y, x)` when
steep, `SetPixel(x, y)` otherwise. -/
def unswap (steep : Bool) (major minor : Int) : Int × Int :=
  if steep then (minor, major) else (major, minor)

/-- The scenario with an index buffer bound but no vertex buffer: indices
`[0, 1, 2]` are uploaded and bound on a fresh 4x4 renderer. -/
def indicesOnly : State :=
  BindIndexBuffer (UploadIndices (create 4 4) [0, 1, 2]).2 (UploadIndices (create 4 4) [0, 1, 2]).1

/-- The size data of the renderer: width, height and pixel buffer length. -/
def dims (r : State) : Int × Int × Nat := (r.w, r.h, r.frameBuffer.length)

/-- The scenario with a fourth index appended: the index buffer `[0, 1, 2, 0]` has
a length that is not divisible by 3. -/
def scenarioFourIndices : State :=
  let up1 := UploadVertices (create 100 100) scenarioVertices
  let up2 := UploadIndices up1.2 [0, 1, 2, 0]
  BindIndexBuffer (BindVertexBuffer up2.2 up1.1) up2.1

/-- Integer endpoint coordinates on which the float arithmetic of `DrawLine` is
exact: every coordinate is below `2 ^ 24` in magnitude and both coordinate
differences are at most `2 ^ 24` in magnitude. -/
def exactInts (ax ay bx by' : Int) : Prop :=
  |ax| < 2 ^ 24 ∧ |ay| < 2 ^ 24 ∧ |bx| < 2 ^ 24 ∧ |by'| < 2 ^ 24 ∧
    |ax - bx| ≤ 2 ^ 24 ∧ |ay - by'| ≤ 2 ^ 24

instance exactInts.decidable (ax ay bx by' : Int) : Decidable (exactInts ax ay bx by') := by
  unfold exactInts; infer_instance

/-- The two conditional swaps of `DrawLine` (`DrawLine.prepare`) carried out on
integer endpoint coordinates. -/
def DrawLine.prepareInt (ax ay bx by' : Int) : Bool × Int × Int × Int × Int :=
  let steep : Bool := decide (|ax - bx| < |ay - by'|)
  let a0 := if steep then ay else ax
  let b0 := if steep then ax else ay
  let a1 := if steep then by' else bx
  let b1 := if steep then bx else by'
  if a0 > a1 then (steep, a1, b1, a0, b0) else (steep, a0, b0, a1, b1)

/-! ## Theorems -/

/-! ### Rounding to `float` -/

theorem bitLength_zero (fuel : Nat) : bitLength fuel 0 = 0 := by
  cases fuel <;> simp [bitLength]

/-- For `n ≥ 1` with enough fuel the bit length is `a + 1` with
`2 ^ a ≤ n < 2 ^ (a + 1)`. -/
theorem bitLength_spec : ∀ (fuel n : Nat), n ≤ fuel → n ≠ 0 →
    ∃ a, bitLength fuel n = a + 1 ∧ 2 ^ a ≤ n ∧ n < 2 ^ (a + 1) := by
  intro fuel
  induction fuel with
  | zero => intro n h hn; omega
  | succ k ih =>
    intro n h hn
    unfold bitLength
    rw [if_neg hn]
    by_cases h2 : n / 2 = 0
    · rw [h2, bitLength_zero]
      exact ⟨0, rfl, by omega, by omega⟩
    · obtain ⟨a, ha, hlo, hhi⟩ := ih (n / 2) (by omega) h2
      refine ⟨a + 1, by rw [ha], ?_, ?_⟩
      · rw [pow_succ]; omega
      · rw [pow_succ] at hhi ⊢; omega

theorem roundHalfEven_intCast (m : Int) : roundHalfEven (m : ℚ) = m := by
  unfold roundHalfEven
  rw [Int.floor_intCast, sub_self, if_pos (by norm_num)]

theorem floor_le_roundHalfEven (t : ℚ) : ⌊t⌋ ≤ roundHalfEven t := by
  unfold roundHalfEven
  split_ifs <;> omega

theorem roundMagF32_zero : roundMagF32 0 = 0 := by
  unfold roundMagF32; rw [if_pos rfl]

/-- A positive rational rounds to a positive float. -/
theorem roundMagF32_pos (q : ℚ) (h : q ≠ 0) : 0 < roundMagF32 q := by
  unfold roundMagF32
  rw [if_neg h]
  apply mul_pos
  · have : (1 : Int) ≤ max (roundHalfEven
        (q / (2 : ℚ) ^ (max (binaryExponent q) (-126) - 23))) 1 := le_max_right _ _
    exact_mod_cast (by omega :
      (0 : Int) < max (roundHalfEven (q / (2 : ℚ) ^ (max (binaryExponent q) (-126) - 23))) 1)
  · exact zpow_pos (by norm_num) _

/-- Only zero rounds to zero. -/
theorem roundF32_eq_zero (q : ℚ) (h : roundF32 q = 0) : q = 0 := by
  by_contra hq
  unfold roundF32 at h
  by_cases hneg : q < 0
  · rw [if_pos hneg] at h
    have := roundMagF32_pos (-q) (neg_ne_zero.2 hq)
    linarith
  · rw [if_neg hneg] at h
    have := roundMagF32_pos q hq
    linarith

/-- Rounding to `float` is odd. -/
theorem roundF32_neg (q : ℚ) : roundF32 (-q) = -roundF32 q := by
  unfold roundF32
  rcases lt_trichotomy q 0 with h | h | h
  · rw [if_neg (by linarith : ¬ -q < 0), if_pos h, neg_neg]
  · subst h
    simp [roundMagF32_zero]
  · rw [if_pos (by linarith : -q < 0), if_neg (by linarith : ¬ q < 0), neg_neg]

theorem binaryExponent_natCast (n a : Nat) (ha : bitLength n n = a + 1) (hlo : 2 ^ a ≤ n) :
    binaryExponent (n : ℚ) = a := by
  have h1 : bitLength 1 1 = 1 := by decide
  unfold binaryExponent
  simp only [Rat.num_natCast, Int.natAbs_ofNat, Rat.den_natCast, ha, h1]
  have he : ((a + 1 : Nat) : Int) - ((1 : Nat) : Int) = (a : Int) := by push_cast; ring
  rw [he, if_pos]
  rw [zpow_natCast]
  exact_mod_cast hlo

/-- The float nearest to a positive integer `n` is an integer `m` with `2 * m > n`,
and it is `n` itself when `n ≤ 2 ^ 24`. -/
theorem roundMagF32_natCast (n : Nat) (hn : n ≠ 0) :
    ∃ m : Int, roundMagF32 (n : ℚ) = (m : ℚ) ∧ (n : Int) < 2 * m ∧
      (n ≤ 2 ^ 24 → m = n) := by
  obtain ⟨a, ha, hlo, hhi⟩ := bitLength_spec n n le_rfl hn
  have hq : (n : ℚ) ≠ 0 := Nat.cast_ne_zero.2 hn
  unfold roundMagF32
  rw [if_neg hq, binaryExponent_natCast n a ha hlo,
    max_eq_left (by omega : (-126 : Int) ≤ (a : Int))]
  by_cases h23 : a ≤ 23
  · -- the unit in the last place is `2 ^ (a - 23) ≤ 1`: `n` is a float
    have hu : (2 : ℚ) ^ ((a : Int) - 23) = (((2 ^ (23 - a) : Nat) : Int) : ℚ)⁻¹ := by
      have : ((a : Int) - 23) = -((23 - a : Nat) : Int) := by omega
      rw [this, zpow_neg, zpow_natCast]
      push_cast; rfl
    have hK : (((2 ^ (23 - a) : Nat) : Int) : ℚ) ≠ 0 := by
      have : (0 : Nat) < 2 ^ (23 - a) := Nat.pos_pow_of_pos _ (by norm_num)
      exact_mod_cast this.ne'
    rw [hu, div_inv_eq_mul]
    have hcast : (n : ℚ) * (((2 ^ (23 - a) : Nat) : Int) : ℚ) =
        (((n : Int) * ((2 ^ (23 - a) : Nat) : Int) : Int) : ℚ) := by push_cast; ring
    have hKge : (1 : Int) ≤ ((2 ^ (23 - a) : Nat) : Int) := by
      have : 0 < 2 ^ (23 - a) := Nat.pos_pow_of_pos _ (by norm_num)
      omega
    have hn1 : (1 : Int) ≤ (n : Int) := by omega
    rw [hcast, roundHalfEven_intCast, max_eq_left (by nlinarith)]
    refine ⟨n, ?_, by omega, fun _ => rfl⟩
    push_cast
    field_simp
  · -- the unit in the last place is the integer `2 ^ (a - 23)`
    have h23' : 23 ≤ a := by omega
    have hu : (2 : ℚ) ^ ((a : Int) - 23) = (((2 ^ (a - 23) : Nat) : Int) : ℚ) := by
      have : ((a : Int) - 23) = ((a - 23 : Nat) : Int) := by omega
      rw [this, zpow_natCast]
      push_cast; rfl
    have hKpos : 0 < 2 ^ (a - 23) := Nat.pos_pow_of_pos _ (by norm_num)
    have hsplit : 2 ^ a = 2 ^ 23 * 2 ^ (a - 23) := by
      rw [← pow_add]; congr 1; omega
    rw [hu]
    have hfloor : ((2 ^ 23 : Nat) : Int) ≤
        ⌊(n : ℚ) / (((2 ^ (a - 23) : Nat) : Int) : ℚ)⌋ := by
      rw [Int.le_floor, le_div_iff₀ (by exact_mod_cast hKpos)]
      have : 2 ^ 23 * 2 ^ (a - 23) ≤ n := by rw [← hsplit]; exact hlo
      exact_mod_cast this
    have hrhe := floor_le_roundHalfEven ((n : ℚ) / (((2 ^ (a - 23) : Nat) : Int) : ℚ))
    have h223 : (1 : Int) ≤ ((2 ^ 23 : Nat) : Int) := by norm_num
    rw [max_eq_left (by omega)]
    refine ⟨roundHalfEven ((n : ℚ) / (((2 ^ (a - 23) : Nat) : Int) : ℚ)) *
      ((2 ^ (a - 23) : Nat) : Int), by push_cast; ring, ?_, ?_⟩
    · have h1 : ((2 ^ 23 : Nat) : Int) * ((2 ^ (a - 23) : Nat) : Int) ≤
          roundHalfEven ((n : ℚ) / (((2 ^ (a - 23) : Nat) : Int) : ℚ)) *
            ((2 ^ (a - 23) : Nat) : Int) :=
        mul_le_mul_of_nonneg_right (le_trans hfloor hrhe) (by positivity)
      have h2 : (n : Int) < 2 * (((2 ^ 23 : Nat) : Int) * ((2 ^ (a - 23) : Nat) : Int)) := by
        have : n < 2 * (2 ^ 23 * 2 ^ (a - 23)) := by
          rw [← hsplit, ← pow_succ']; exact hhi
        exact_mod_cast this
      omega
    · intro hle
      -- `2 ^ a ≤ n ≤ 2 ^ 24` and `a ≥ 24` leave `n = 2 ^ 24`, `a = 24`
      have ha24 : a = 24 := by
        by_contra hne
        have h25 : 25 ≤ a := by omega
        have : 2 ^ 25 ≤ 2 ^ a := Nat.pow_le_pow_right (by norm_num) h25
        omega
      subst ha24
      have hn' : n = 2 ^ 24 := by omega
      subst hn'
      have : ((2 ^ 24 : Nat) : ℚ) / (((2 ^ (24 - 23) : Nat) : Int) : ℚ) =
          (((2 ^ 23 : Nat) : Int) : ℚ) := by norm_num
      rw [this, roundHalfEven_intCast]
      norm_num


/-- The float nearest to an integer `z` is an integer `m`; `2 * m > z` when `z` is
positive, `m ≥ 0` when `z ≥ 0`, and `m = z` when `|z| ≤ 2 ^ 24`. -/
theorem roundF32_intCast (z : Int) :
    ∃ m : Int, roundF32 (z : ℚ) = (m : ℚ) ∧ (0 < z → z < 2 * m) ∧
      (|z| ≤ 2 ^ 24 → m = z) := by
  rcases lt_trichotomy z 0 with h | h | h
  · obtain ⟨m, hm, _, hex⟩ := roundMagF32_natCast z.natAbs (by omega)
    have hcast : -(z : ℚ) = ((z.natAbs : Nat) : ℚ) := by
      rw [Nat.cast_natAbs, abs_of_neg h, Int.cast_neg]
    refine ⟨-m, ?_, fun h0 => absurd h0 (by omega), ?_⟩
    · unfold roundF32
      rw [if_pos (by exact_mod_cast h), hcast, hm]
      push_cast; ring
    · intro habs
      rw [abs_of_neg h] at habs
      have := hex (by omega)
      omega
  · subst h
    refine ⟨0, ?_, fun h0 => absurd h0 (lt_irrefl _), fun _ => rfl⟩
    unfold roundF32
    simp [roundMagF32_zero]
  · obtain ⟨m, hm, hlt, hex⟩ := roundMagF32_natCast z.natAbs (by omega)
    have hcast : (z : ℚ) = ((z.natAbs : Nat) : ℚ) := by
      rw [Nat.cast_natAbs, abs_of_pos h]
    refine ⟨m, ?_, fun _ => by omega, ?_⟩
    · unfold roundF32
      rw [if_neg (by exact_mod_cast (not_lt.2 h.le)), hcast, hm]
    · intro habs
      rw [abs_of_pos h] at habs
      have := hex (by omega)
      omega

/-- Integers of magnitude at most `2 ^ 24` are floats. -/
theorem roundF32_intCast_exact (z : Int) (h : |z| ≤ 2 ^ 24) : roundF32 (z : ℚ) = (z : ℚ) := by
  obtain ⟨m, hm, _, hex⟩ := roundF32_intCast z
  rw [hm, hex h]

/-- The float subtraction of two integers is exact when the difference has magnitude
at most `2 ^ 24`. -/
theorem f32sub_intCast (a b : Int) (h : |a - b| ≤ 2 ^ 24) :
    f32sub (a : ℚ) (b : ℚ) = ((a - b : Int) : ℚ) := by
  unfold f32sub
  rw [← Int.cast_sub, roundF32_intCast_exact _ h]

/-- The float subtraction is antisymmetric. -/
theorem f32sub_comm (a b : ℚ) : f32sub a b = -f32sub b a := by
  unfold f32sub
  rw [← roundF32_neg, neg_sub]

/-- The loop condition of `DrawLine` fails for every `x` above
`max (2 * ⌊x1⌋ + 1) 0`. -/
theorem guard_false_of_gt (x1 : ℚ) (x : Int) (h : max (2 * ⌊x1⌋ + 1) 0 < x) :
    ¬ roundF32 (x : ℚ) ≤ x1 := by
  obtain ⟨m, hm, hlt, _⟩ := roundF32_intCast x
  have hx0 : 0 < x := by omega
  have h2 : x < 2 * m := hlt hx0
  rw [hm]
  intro hle
  have hfl : m ≤ ⌊x1⌋ := Int.le_floor.2 hle
  omega

theorem truncToInt_intCast (n : Int) : truncToInt (n : ℚ) = n := by
  simp [truncToInt]


/-! ### The line rasterizer -/

/-- The guard of `SetPixel` passes exactly for the points of `[0,w) × [0,h)`. -/
theorem SetPixel_of_inside (r : State) (x y : Int) (c : vec4)
    (hx0 : 0 ≤ x) (hx1 : x < r.w) (hy0 : 0 ≤ y) (hy1 : y < r.h) :
    SetPixel r x y c = { r with frameBuffer := r.frameBuffer.set (y * r.w + x).toNat c } := by
  unfold SetPixel
  rw [if_neg (by omega), if_neg (by omega)]

/-- Outside the pixel rectangle `SetPixel` returns the state as it is. -/
theorem SetPixel_of_outside (r : State) (x y : Int) (c : vec4)
    (h : x < 0 ∨ x ≥ r.w ∨ y < 0 ∨ y ≥ r.h) : SetPixel r x y c = r := by
  unfold SetPixel
  by_cases hx : x < 0 ∨ x ≥ r.w
  · rw [if_pos hx]
  · rw [if_neg hx, if_pos (by omega)]

/-- The row-major index of a pixel of the rectangle is below `w * h`. -/
theorem index_lt (w h x y : Int) (hx0 : 0 ≤ x) (hx1 : x < w) (hy0 : 0 ≤ y) (hy1 : y < h) :
    0 ≤ y * w + x ∧ y * w + x < w * h := by
  have h1 : 0 ≤ y * w := mul_nonneg hy0 (by omega)
  have h2 : (y + 1) * w ≤ h * w := mul_le_mul_of_nonneg_right (by omega) (by omega)
  constructor
  · omega
  · nlinarith

/-- Two pixels of the rectangle with the same row-major index are equal. -/
theorem index_inj (w x y x' y' : Int) (hx0 : 0 ≤ x) (hx1 : x < w) (hx0' : 0 ≤ x') (hx1' : x' < w)
    (h : y * w + x = y' * w + x') : x = x' ∧ y = y' := by
  have hy : y = y' := by
    rcases lt_trichotomy y y' with hlt | heq | hgt
    · exfalso
      have : (y + 1) * w ≤ y' * w := mul_le_mul_of_nonneg_right (by omega) (by omega)
      nlinarith
    · exact heq
    · exfalso
      have : (y' + 1) * w ≤ y * w := mul_le_mul_of_nonneg_right (by omega) (by omega)
      nlinarith
  subst hy
  exact ⟨by omega, rfl⟩

/-- C3: on a pixel buffer of length `w * h`, `SetPixel(x, y, c)` leaves the state
unchanged when `x < 0`, `x ≥ w`, `y < 0` or `y ≥ h`; otherwise the index
`y * w + x` is within the buffer, the length is kept, that entry becomes `c`,
every other entry is unchanged, and in particular no other pixel `(x', y')` of
the rectangle is touched (no wraparound into another row). -/
theorem SetPixel_spec (r : State) (x y : Int) (c : vec4)
    (hlen : r.frameBuffer.length = (r.w * r.h).toNat) :
    ((x < 0 ∨ x ≥ r.w ∨ y < 0 ∨ y ≥ r.h) → SetPixel r x y c = r) ∧
    ((0 ≤ x ∧ x < r.w ∧ 0 ≤ y ∧ y < r.h) →
      0 ≤ y * r.w + x ∧ (y * r.w + x).toNat < r.frameBuffer.length ∧
      (SetPixel r x y c).frameBuffer.length = r.frameBuffer.length ∧
      (SetPixel r x y c).frameBuffer[(y * r.w + x).toNat]? = some c ∧
      (∀ j : Nat, j ≠ (y * r.w + x).toNat →
        (SetPixel r x y c).frameBuffer[j]? = r.frameBuffer[j]?) ∧
      (∀ x' y' : Int, 0 ≤ x' → x' < r.w → 0 ≤ y' → y' < r.h → (x', y') ≠ (x, y) →
        (SetPixel r x y c).frameBuffer[(y' * r.w + x').toNat]? =
          r.frameBuffer[(y' * r.w + x').toNat]?)) := by
  refine ⟨SetPixel_of_outside r x y c, ?_⟩
  rintro ⟨hx0, hx1, hy0, hy1⟩
  obtain ⟨hi0, hi1⟩ := index_lt r.w r.h x y hx0 hx1 hy0 hy1
  have hlt : (y * r.w + x).toNat < r.frameBuffer.length := by
    rw [hlen]; omega
  rw [SetPixel_of_inside r x y c hx0 hx1 hy0 hy1]
  refine ⟨hi0, hlt, by simp, by simp [hlt], ?_, ?_⟩
  · intro j hj
    simp [List.getElem?_set_ne (Ne.symm hj)]
  · intro x' y' hx0' hx1' hy0' hy1' hne
    obtain ⟨hi0', _⟩ := index_lt r.w r.h x' y' hx0' hx1' hy0' hy1'
    have hidx : (y * r.w + x).toNat ≠ (y' * r.w + x').toNat := by
      intro heq
      have : y * r.w + x = y' * r.w + x' := by omega
      obtain ⟨h1, h2⟩ := index_inj r.w x y x' y' hx0 hx1 hx0' hx1' this
      exact hne (by rw [h1, h2])
    simp [List.getElem?_set_ne hidx]

/-- Witness of `SetPixel_spec` on a 2x2 buffer. -/
theorem SetPixel_spec_witness :
    (create 2 2).frameBuffer.length = ((create 2 2).w * (create 2 2).h).toNat ∧
      (SetPixel (create 2 2) 1 1 ⟨1, 1, 1, 1⟩).frameBuffer[(1 * (create 2 2).w + 1).toNat]? =
        some ⟨1, 1, 1, 1⟩ :=
  ⟨by decide, ((SetPixel_spec (create 2 2) 1 1 ⟨1, 1, 1, 1⟩ (by decide)).2 (by decide)).2.2.2.1⟩

/-- The two conditional swaps give the same endpoints for both argument orders:
either the major coordinates differ and are put in increasing order, or the two
points have the same `x` and `y`. -/
theorem DrawLine.prepare_comm (a b : vec3) : DrawLine.prepare a b = DrawLine.prepare b a := by
  unfold DrawLine.prepare
  have hx : |f32sub a.x b.x| = |f32sub b.x a.x| := by rw [f32sub_comm, abs_neg]
  have hy : |f32sub a.y b.y| = |f32sub b.y a.y| := by rw [f32sub_comm, abs_neg]
  simp only [hx, hy]
  by_cases hs : |f32sub b.x a.x| < |f32sub b.y a.y|
  · simp only [hs, decide_True, if_true]
    rcases lt_trichotomy a.y b.y with h | h | h
    · rw [if_neg (not_lt.2 h.le), if_pos h]
    · exfalso
      have h0 : f32sub b.y a.y = 0 := by
        unfold f32sub roundF32
        simp [h, roundMagF32_zero]
      rw [h0, abs_zero] at hs
      exact absurd hs (not_lt.2 (abs_nonneg _))
    · rw [if_pos h, if_neg (not_lt.2 h.le)]
  · simp only [hs, decide_False, Bool.false_eq_true, if_false]
    rcases lt_trichotomy a.x b.x with h | h | h
    · rw [if_neg (not_lt.2 h.le), if_pos h]
    · have hy' : b.y = a.y := by
        have h0 : f32sub b.x a.x = 0 := by
          unfold f32sub roundF32
          simp [h, roundMagF32_zero]
        rw [h0, abs_zero, not_lt] at hs
        have h1 : f32sub b.y a.y = 0 := abs_eq_zero.1 (le_antisymm hs (abs_nonneg _))
        exact sub_eq_zero.1 (roundF32_eq_zero _ h1)
      rw [h, hy']
    · rw [if_pos h, if_neg (not_lt.2 h.le)]

/-- C1: line symmetry.  For every state, colour and pair of endpoints,
`DrawLine(a, b, c)` and `DrawLine(b, a, c)` produce the same final state, hence
the same pixel buffer. -/
theorem DrawLine_symmetric (r : State) (a b : vec3) (c : vec4) :
    DrawLine r a b c = DrawLine r b a c := by
  unfold DrawLine
  rw [DrawLine.prepare_comm a b]

/-- The loop of `DrawLine` makes the `SetPixel` calls recorded by `loopPoints`. -/
theorem DrawLine.loop_eq_setPixels (steep : Bool) (x1 y0 y1 : ℚ) (dx derror2 : Int) (color : vec4) :
    ∀ (fuel : Nat) (x y e : Int) (r : State),
      DrawLine.loop steep x1 y0 y1 dx derror2 color fuel x y e r =
        setPixels r color (DrawLine.loopPoints steep x1 y0 y1 dx derror2 fuel x y e) := by
  intro fuel
  induction fuel with
  | zero => intro x y e r; rfl
  | succ n ih =>
    intro x y e r
    unfold DrawLine.loop DrawLine.loopPoints
    by_cases hx : roundF32 (x : ℚ) ≤ x1
    · simp only [hx, if_true]
      by_cases he : e + derror2 > dx
      · simp only [he, if_true, ih, setPixels, List.foldl_cons]
        cases steep <;> rfl
      · simp only [he, if_false, ih, setPixels, List.foldl_cons]
        cases steep <;> rfl
    · simp only [hx, if_false]
      rfl

/-- `DrawLine` makes the `SetPixel` calls recorded by `DrawLine.points`. -/
theorem DrawLine_eq_setPixels (r : State) (p1 p2 : vec3) (color : vec4) :
    DrawLine r p1 p2 color = setPixels r color (DrawLine.points p1 p2) := by
  unfold DrawLine DrawLine.points
  exact DrawLine.loop_eq_setPixels _ _ _ _ _ _ _ _ _ _ _ _

/-- The iteration bound passed by `DrawLine` is enough: any larger bound gives the
same result, the loop condition being false once the bound is used up. -/
theorem DrawLine.loop_fuel (steep : Bool) (x1 y0 y1 : ℚ) (dx derror2 : Int) (color : vec4)
    (extra : Nat) :
    ∀ (fuel : Nat) (x y e : Int) (r : State),
      fuel = (max (2 * ⌊x1⌋ + 1) 0 - x + 1).toNat →
      DrawLine.loop steep x1 y0 y1 dx derror2 color (fuel + extra) x y e r =
        DrawLine.loop steep x1 y0 y1 dx derror2 color fuel x y e r := by
  intro fuel
  induction fuel with
  | zero =>
    intro x y e r h
    have hx : ¬ roundF32 (x : ℚ) ≤ x1 := guard_false_of_gt x1 x (by omega)
    cases extra with
    | zero => rfl
    | succ k =>
      rw [Nat.zero_add]
      unfold DrawLine.loop
      simp only [hx, if_false]
  | succ n ih =>
    intro x y e r h
    rw [Nat.add_right_comm]
    unfold DrawLine.loop
    have hn : n = (max (2 * ⌊x1⌋ + 1) 0 - (x + 1) + 1).toNat := by omega
    by_cases hx : roundF32 (x : ℚ) ≤ x1
    · simp only [hx, if_true]
      by_cases he : e + derror2 > dx
      · simp only [he, if_true]
        exact ih _ _ _ _ hn
      · simp only [he, if_false]
        exact ih _ _ _ _ hn
    · simp only [hx, if_false]

theorem SetPixel_w (r : State) (x y : Int) (c : vec4) : (SetPixel r x y c).w = r.w := by
  unfold SetPixel; split_ifs <;> rfl

theorem SetPixel_h (r : State) (x y : Int) (c : vec4) : (SetPixel r x y c).h = r.h := by
  unfold SetPixel; split_ifs <;> rfl

theorem setPixels_w_h (c : vec4) (ps : List (Int × Int)) :
    ∀ r : State, (setPixels r c ps).w = r.w ∧ (setPixels r c ps).h = r.h := by
  induction ps with
  | nil => intro r; exact ⟨rfl, rfl⟩
  | cons p ps ih =>
    intro r
    unfold setPixels
    rw [List.foldl_cons]
    have := ih (SetPixel r p.1 p.2 c)
    unfold setPixels at this
    rw [this.1, this.2, SetPixel_w, SetPixel_h]
    exact ⟨rfl, rfl⟩

theorem SetPixel_length (r : State) (x y : Int) (c : vec4) :
    (SetPixel r x y c).frameBuffer.length = r.frameBuffer.length := by
  unfold SetPixel; split_ifs <;> simp

theorem setPixels_length (c : vec4) (ps : List (Int × Int)) :
    ∀ r : State, (setPixels r c ps).frameBuffer.length = r.frameBuffer.length := by
  induction ps with
  | nil => intro r; rfl
  | cons p ps ih =>
    intro r
    have := ih (SetPixel r p.1 p.2 c)
    unfold setPixels at this ⊢
    rw [List.foldl_cons, this, SetPixel_length]


/-! ### The walk on integer endpoints -/

/-- On integer endpoints whose differences are exact in `float`, the swaps of
`DrawLine` are those of `prepareInt`. -/
theorem DrawLine.prepare_intCast (ax ay bx by' : Int) (az bz : ℚ)
    (hx : |ax - bx| ≤ 2 ^ 24) (hy : |ay - by'| ≤ 2 ^ 24) :
    DrawLine.prepare ⟨ax, ay, az⟩ ⟨bx, by', bz⟩ =
      ((DrawLine.prepareInt ax ay bx by').1, ((DrawLine.prepareInt ax ay bx by').2.1 : ℚ),
        ((DrawLine.prepareInt ax ay bx by').2.2.1 : ℚ),
        ((DrawLine.prepareInt ax ay bx by').2.2.2.1 : ℚ),
        ((DrawLine.prepareInt ax ay bx by').2.2.2.2 : ℚ)) := by
  unfold DrawLine.prepare DrawLine.prepareInt
  simp only [f32sub_intCast ax bx hx, f32sub_intCast ay by' hy, ← Int.cast_abs, Int.cast_lt,
    gt_iff_lt]
  by_cases hs : |ax - bx| < |ay - by'|
  · simp only [hs, decide_True, if_true]
    by_cases hsw : by' < ay
    · simp only [Int.cast_lt, hsw, if_true]
    · simp only [Int.cast_lt, hsw, if_false]
  · simp only [hs, decide_False, Bool.false_eq_true, if_false]
    by_cases hsw : bx < ax
    · simp only [Int.cast_lt, hsw, if_true]
    · simp only [Int.cast_lt, hsw, if_false]

/-- After the swaps: the major coordinates are ordered, the minor delta is at most
the major delta, the major delta is the larger of the two coordinate differences,
and the two walk endpoints are the two given endpoints. -/
theorem DrawLine.prepareInt_spec (ax ay bx by' : Int) :
    ∃ (steep : Bool) (X0 Y0 X1 Y1 : Int),
      DrawLine.prepareInt ax ay bx by' = (steep, X0, Y0, X1, Y1) ∧
      steep = decide (|ax - bx| < |ay - by'|) ∧
      X0 ≤ X1 ∧ |Y1 - Y0| ≤ X1 - X0 ∧ X1 - X0 = max |bx - ax| |by' - ay| ∧
      ((unswap steep X0 Y0 = (ax, ay) ∧ unswap steep X1 Y1 = (bx, by')) ∨
        (unswap steep X0 Y0 = (bx, by') ∧ unswap steep X1 Y1 = (ax, ay))) := by
  unfold DrawLine.prepareInt
  by_cases hs : |ax - bx| < |ay - by'|
  · simp only [hs, decide_True, if_true]
    by_cases hsw : by' < ay
    · simp only [gt_iff_lt, hsw, if_true]
      refine ⟨true, by', bx, ay, ax, rfl, rfl, hsw.le, ?_, ?_, Or.inr ⟨rfl, rfl⟩⟩
      · rw [abs_of_pos (by omega : (0:Int) < ay - by')] at hs; omega
      · rw [abs_sub_comm bx ax, abs_sub_comm by' ay, max_eq_right hs.le,
          abs_of_pos (by omega : (0:Int) < ay - by')]
    · simp only [gt_iff_lt, hsw, if_false]
      refine ⟨true, ay, ax, by', bx, rfl, rfl, by omega, ?_, ?_, Or.inl ⟨rfl, rfl⟩⟩
      · rw [abs_sub_comm ay by', abs_of_nonneg (by omega : (0:Int) ≤ by' - ay)] at hs
        rw [abs_sub_comm]; omega
      · rw [abs_sub_comm ax bx, abs_sub_comm ay by'] at hs
        rw [max_eq_right hs.le, abs_of_nonneg (by omega : (0:Int) ≤ by' - ay)]
  · simp only [hs, decide_False, Bool.false_eq_true, if_false]
    by_cases hsw : bx < ax
    · simp only [gt_iff_lt, hsw, if_true]
      refine ⟨false, bx, by', ax, ay, rfl, rfl, hsw.le, ?_, ?_, Or.inr ⟨rfl, rfl⟩⟩
      · rw [abs_of_pos (by omega : (0:Int) < ax - bx)] at hs; omega
      · rw [abs_sub_comm bx ax, abs_sub_comm by' ay, max_eq_left (not_lt.1 hs),
          abs_of_pos (by omega : (0:Int) < ax - bx)]
    · simp only [gt_iff_lt, hsw, if_false]
      refine ⟨false, ax, ay, bx, by', rfl, rfl, by omega, ?_, ?_, Or.inl ⟨rfl, rfl⟩⟩
      · rw [abs_sub_comm ax bx, abs_of_nonneg (by omega : (0:Int) ≤ bx - ax)] at hs
        rw [abs_sub_comm]; omega
      · rw [abs_sub_comm ax bx, abs_sub_comm ay by'] at hs
        rw [max_eq_left (not_lt.1 hs), abs_of_nonneg (by omega : (0:Int) ≤ bx - ax)]

/-- The walk endpoints after the swaps have the coordinates of the given endpoints,
so a bound on the magnitude of the latter holds for the former. -/
theorem DrawLine.prepareInt_bound (ax ay bx by' B : Int) (steep : Bool) (X0 Y0 X1 Y1 : Int)
    (h : (unswap steep X0 Y0 = (ax, ay) ∧ unswap steep X1 Y1 = (bx, by')) ∨
      (unswap steep X0 Y0 = (bx, by') ∧ unswap steep X1 Y1 = (ax, ay)))
    (hax : |ax| < B) (hay : |ay| < B) (hbx : |bx| < B) (hby : |by'| < B) :
    |X0| < B ∧ |Y0| < B ∧ |X1| < B ∧ |Y1| < B := by
  cases steep <;> simp only [unswap, Bool.false_eq_true, if_false, if_true, Prod.mk.injEq] at h <;>
    rcases h with ⟨⟨h1, h2⟩, h3, h4⟩ | ⟨⟨h1, h2⟩, h3, h4⟩ <;> subst h1 h2 h3 h4 <;>
    exact ⟨by assumption, by assumption, by assumption, by assumption⟩

/-- The walk of `DrawLine` enumerated.  Let the loop condition hold exactly for
the major coordinates `X0 + k` with `k ≤ N`, and let `dx = D`, `|dy| = A` with
`0 ≤ A ≤ D`.  Started at step `k` with enough iterations allowed, the loop
records exactly one point per remaining major coordinate; the `i`-th one has major
coordinate `X0 + k + i` and a minor offset `m'` with
`-D < 2A(k+i) - 2Dm' ≤ D`. -/
theorem DrawLine.loopPoints_walk (steep : Bool) (x1 y0 y1 : ℚ) (X0 Y0 N D A : Int)
    (hA : 0 ≤ A) (hAD : A ≤ D)
    (hguard : ∀ k : Int, 0 ≤ k → k ≤ N + 1 → (roundF32 ((X0 + k : Int) : ℚ) ≤ x1 ↔ k ≤ N)) :
    ∀ (fuel : Nat) (x y e k m : Int), x = X0 + k →
      y = Y0 + (if y1 > y0 then 1 else -1) * m →
      0 ≤ k → k ≤ N + 1 → 0 ≤ m → e = 2 * A * k - 2 * D * m → e ≤ D →
      (-D < e ∨ (D = 0 ∧ m = 0)) → N - k + 1 ≤ (fuel : Int) →
      (DrawLine.loopPoints steep x1 y0 y1 D (A * 2) fuel x y e).length = (N - k + 1).toNat ∧
      ∀ i : Nat, (i : Int) < N - k + 1 → ∃ m' : Int,
        (DrawLine.loopPoints steep x1 y0 y1 D (A * 2) fuel x y e)[i]? =
          some (unswap steep (X0 + k + i) (Y0 + (if y1 > y0 then 1 else -1) * m')) ∧
        0 ≤ m' ∧ 2 * A * (k + i) - 2 * D * m' ≤ D ∧
        (-D < 2 * A * (k + i) - 2 * D * m' ∨ (D = 0 ∧ m' = 0)) ∧ (i = 0 → m' = m) := by
  intro fuel
  induction fuel with
  | zero =>
    intro x y e k m _ _ _ _ _ _ _ _ hfuel
    refine ⟨?_, fun i hi => ?_⟩
    · simp only [DrawLine.loopPoints, List.length_nil]
      push_cast at hfuel; omega
    · push_cast at hfuel; omega
  | succ n ih =>
    intro x y e k m hx hy hk hkN hm he heD hlow hfuel
    unfold DrawLine.loopPoints
    by_cases hkle : k ≤ N
    · have hg : roundF32 (x : ℚ) ≤ x1 := by rw [hx]; exact (hguard k hk hkN).2 hkle
      have hhead : (if steep then (y, x) else (x, y)) =
          unswap steep (X0 + k + ((0 : Nat) : Int))
            (Y0 + (if y1 > y0 then 1 else -1) * m) := by
        rw [hx, hy]; simp [unswap]
      have hfuel' : N - (k + 1) + 1 ≤ (n : Int) := by push_cast at hfuel; omega
      have hlow0 : -D < 2 * A * (k + ((0 : Nat) : Int)) - 2 * D * m ∨ (D = 0 ∧ m = 0) := by
        rcases hlow with h | h
        · left; simp only [Nat.cast_zero, add_zero]; omega
        · right; exact h
      have hup0 : 2 * A * (k + ((0 : Nat) : Int)) - 2 * D * m ≤ D := by
        simp only [Nat.cast_zero, add_zero]; omega
      have hlen' : (N - (k + 1) + 1).toNat + 1 = (N - k + 1).toNat := by omega
      simp only [hg, if_true]
      by_cases hstep : e + A * 2 > D
      · simp only [hstep, if_true]
        obtain ⟨hlen, hpts⟩ := ih (x + 1) (y + (if y1 > y0 then 1 else -1)) (e + A * 2 - D * 2)
          (k + 1) (m + 1) (by omega) (by rw [hy]; ring) (by omega) (by omega) (by omega)
          (by rw [he]; ring) (by omega) (Or.inl (by omega)) hfuel'
        refine ⟨by rw [List.length_cons, hlen, hlen'], ?_⟩
        intro i hi
        cases i with
        | zero =>
          exact ⟨m, by rw [List.getElem?_cons_zero, hhead], hm, hup0, hlow0, fun _ => rfl⟩
        | succ j =>
          obtain ⟨m', h1, h2, h4, h5, _⟩ := hpts j (by push_cast at hi; omega)
          refine ⟨m', ?_, h2, ?_, ?_, fun h => absurd h (Nat.succ_ne_zero _)⟩
          · rw [List.getElem?_cons_succ, h1]
            congr 2
            push_cast; ring
          · push_cast; linarith
          · rcases h5 with h5 | h5
            · left; push_cast; linarith
            · right; exact h5
      · simp only [hstep, if_false]
        obtain ⟨hlen, hpts⟩ := ih (x + 1) y (e + A * 2) (k + 1) m (by omega) hy (by omega)
          (by omega) hm (by rw [he]; ring) (by omega)
          (by
            rcases hlow with h | h
            · left; omega
            · right; exact h) hfuel'
        refine ⟨by rw [List.length_cons, hlen, hlen'], ?_⟩
        intro i hi
        cases i with
        | zero =>
          exact ⟨m, by rw [List.getElem?_cons_zero, hhead], hm, hup0, hlow0, fun _ => rfl⟩
        | succ j =>
          obtain ⟨m', h1, h2, h4, h5, _⟩ := hpts j (by push_cast at hi; omega)
          refine ⟨m', ?_, h2, ?_, ?_, fun h => absurd h (Nat.succ_ne_zero _)⟩
          · rw [List.getElem?_cons_succ, h1]
            congr 2
            push_cast; ring
          · push_cast; linarith
          · rcases h5 with h5 | h5
            · left; push_cast; linarith
            · right; exact h5
    · have hg : ¬ roundF32 (x : ℚ) ≤ x1 := by
        rw [hx]; exact fun h => hkle ((hguard k hk hkN).1 h)
      simp only [hg, if_false]
      refine ⟨?_, fun i hi => ?_⟩
      · simp only [List.length_nil]; omega
      · omega


/-- The pixel writes of `DrawLine` on integer endpoints in the exact range,
enumerated: with `(steep, X0, Y0, X1, Y1)` the endpoints after the swaps,
`D = X1 - X0` and `A = |Y1 - Y0|`, there are `D + 1` writes and the `i`-th is at
major coordinate `X0 + i` and minor coordinate `Y0 ± m'` with
`-D < 2Ai - 2Dm' ≤ D`. -/
theorem DrawLine.points_int_enum (ax ay bx by' : Int) (az bz : ℚ) (steep : Bool)
    (X0 Y0 X1 Y1 : Int) (hr : exactInts ax ay bx by')
    (hprep : DrawLine.prepareInt ax ay bx by' = (steep, X0, Y0, X1, Y1))
    (hX : X0 ≤ X1) (hA : |Y1 - Y0| ≤ X1 - X0) (hD : X1 - X0 ≤ 2 ^ 24)
    (hX0 : |X0| < 2 ^ 24) (hX1 : |X1| < 2 ^ 24) :
    (DrawLine.points ⟨ax, ay, az⟩ ⟨bx, by', bz⟩).length = (X1 - X0 + 1).toNat ∧
    ∀ i : Nat, i < (X1 - X0 + 1).toNat → ∃ m' : Int,
      (DrawLine.points ⟨ax, ay, az⟩ ⟨bx, by', bz⟩)[i]? =
        some (unswap steep (X0 + i) (Y0 + (if Y0 < Y1 then 1 else -1) * m')) ∧
      0 ≤ m' ∧ m' ≤ |Y1 - Y0| ∧ 2 * |Y1 - Y0| * i - 2 * (X1 - X0) * m' ≤ X1 - X0 ∧
      (-(X1 - X0) < 2 * |Y1 - Y0| * i - 2 * (X1 - X0) * m' ∨ (X1 - X0 = 0 ∧ m' = 0)) ∧
      (i = 0 → m' = 0) := by
  obtain ⟨_, _, _, _, hxd, hyd⟩ := hr
  have hX0' := abs_lt.1 hX0
  have hX1' := abs_lt.1 hX1
  have hdx : |X1 - X0| ≤ 2 ^ 24 := by rw [abs_of_nonneg (by omega)]; exact hD
  have hdy : |Y1 - Y0| ≤ 2 ^ 24 := le_trans hA hD
  have hpts : DrawLine.points ⟨ax, ay, az⟩ ⟨bx, by', bz⟩ =
      DrawLine.loopPoints steep (X1 : ℚ) (Y0 : ℚ) (Y1 : ℚ) (X1 - X0)
        (|Y1 - Y0| * 2) (DrawLine.iterations (X0 : ℚ) (X1 : ℚ)) X0 Y0 0 := by
    unfold DrawLine.points
    rw [DrawLine.prepare_intCast ax ay bx by' az bz hxd hyd, hprep]
    simp only [f32sub_intCast X1 X0 hdx, f32sub_intCast Y1 Y0 hdy, truncToInt_intCast]
  have hs : (if (Y1 : ℚ) > (Y0 : ℚ) then (1 : Int) else -1) = if Y0 < Y1 then 1 else -1 := by
    simp only [gt_iff_lt, Int.cast_lt]
  have hguard : ∀ k : Int, 0 ≤ k → k ≤ X1 - X0 + 1 →
      (roundF32 ((X0 + k : Int) : ℚ) ≤ (X1 : ℚ) ↔ k ≤ X1 - X0) := by
    intro k hk hk'
    rw [roundF32_intCast_exact (X0 + k) (by rw [abs_le]; constructor <;> omega), Int.cast_le]
    omega
  have hfuel : X1 - X0 - 0 + 1 ≤ ((DrawLine.iterations (X0 : ℚ) (X1 : ℚ) : Nat) : Int) := by
    unfold DrawLine.iterations
    rw [Int.floor_intCast, truncToInt_intCast]
    omega
  obtain ⟨hlen, hall⟩ := DrawLine.loopPoints_walk steep (X1 : ℚ) (Y0 : ℚ) (Y1 : ℚ) X0 Y0
    (X1 - X0) (X1 - X0) (|Y1 - Y0|) (abs_nonneg _) hA hguard
    (DrawLine.iterations (X0 : ℚ) (X1 : ℚ)) X0 Y0 0 0 0 (by ring) (by ring) le_rfl (by omega)
    le_rfl (by ring) (by omega)
    (by
      rcases (show 0 ≤ X1 - X0 by omega).lt_or_eq with h | h
      · left; omega
      · right; exact ⟨h.symm, rfl⟩) hfuel
  rw [hpts]
  refine ⟨by rw [hlen, sub_zero], ?_⟩
  intro i hi
  obtain ⟨m', h1, h2, h4, h5, h6⟩ := hall i (by omega)
  rw [hs] at h1
  simp only [add_zero, zero_add] at h1 h4 h5
  have hiD : (i : Int) ≤ X1 - X0 := by omega
  have hmA : m' ≤ |Y1 - Y0| := by
    rcases h5 with h | ⟨_, h0⟩
    · by_contra hcon
      have h1' : |Y1 - Y0| + 1 ≤ m' := by omega
      have h2' : 0 ≤ |Y1 - Y0| * (X1 - X0 - i) := mul_nonneg (abs_nonneg _) (by omega)
      have h3' : 0 ≤ (X1 - X0) * (m' - (|Y1 - Y0| + 1)) := mul_nonneg (by omega) (by omega)
      nlinarith
    · have := abs_nonneg (Y1 - Y0); omega
  exact ⟨m', h1, h2, hmA, h4, h5, h6⟩

/-- The hypotheses of `points_int_enum` follow from `exactInts`. -/
theorem DrawLine.prepareInt_exact (ax ay bx by' : Int) (hr : exactInts ax ay bx by') :
    ∃ (steep : Bool) (X0 Y0 X1 Y1 : Int),
      DrawLine.prepareInt ax ay bx by' = (steep, X0, Y0, X1, Y1) ∧
      steep = decide (|ax - bx| < |ay - by'|) ∧
      X0 ≤ X1 ∧ |Y1 - Y0| ≤ X1 - X0 ∧ X1 - X0 = max |bx - ax| |by' - ay| ∧
      ((unswap steep X0 Y0 = (ax, ay) ∧ unswap steep X1 Y1 = (bx, by')) ∨
        (unswap steep X0 Y0 = (bx, by') ∧ unswap steep X1 Y1 = (ax, ay))) ∧
      X1 - X0 ≤ 2 ^ 24 ∧ |X0| < 2 ^ 24 ∧ |X1| < 2 ^ 24 := by
  obtain ⟨steep, X0, Y0, X1, Y1, hprep, hsteep, hX, hA, hD, hends⟩ :=
    DrawLine.prepareInt_spec ax ay bx by'
  obtain ⟨h1, h2, h3, h4, h5, h6⟩ := hr
  obtain ⟨b0, _, b1, _⟩ := DrawLine.prepareInt_bound ax ay bx by' (2 ^ 24) steep X0 Y0 X1 Y1
    hends h1 h2 h3 h4
  refine ⟨steep, X0, Y0, X1, Y1, hprep, hsteep, hX, hA, hD, hends, ?_, b0, b1⟩
  rw [hD, abs_sub_comm bx ax, abs_sub_comm by' ay]
  exact max_le h5 h6

theorem majorOf_unswap (steep : Bool) (a b : Int) : majorOf steep (unswap steep a b) = a := by
  cases steep <;> rfl

theorem minorOf_unswap (steep : Bool) (a b : Int) : minorOf steep (unswap steep a b) = b := by
  cases steep <;> rfl

/-- The minor offset at the last step is the whole minor delta. -/
theorem last_minor_offset (D A m' : Int) (hD : 0 ≤ D) (hAD : A ≤ D) (h0 : 0 ≤ A)
    (hm : m' ≤ A) (hup : 2 * A * D - 2 * D * m' ≤ D)
    (hlow : -D < 2 * A * D - 2 * D * m' ∨ (D = 0 ∧ m' = 0)) : m' = A := by
  rcases hD.lt_or_eq with hpos | hzero
  · by_contra hne
    have h1 : m' + 1 ≤ A := by omega
    have h2 : 0 ≤ D * (A - (m' + 1)) := mul_nonneg hD (by omega)
    nlinarith
  · rcases hlow with h | ⟨_, h⟩
    · omega
    · omega


/-! ### Bounds safety -/

/-- Pixel writes that are all outside the rectangle leave the state unchanged. -/
theorem setPixels_of_all_outside (r : State) (c : vec4) (ps : List (Int × Int))
    (h : ∀ p ∈ ps, p.1 < 0 ∨ p.1 ≥ r.w ∨ p.2 < 0 ∨ p.2 ≥ r.h) : setPixels r c ps = r := by
  induction ps with
  | nil => rfl
  | cons p ps ih =>
    unfold setPixels
    rw [List.foldl_cons, SetPixel_of_outside r p.1 p.2 c (h p (List.mem_cons_self _ _))]
    exact ih (fun q hq => h q (List.mem_cons_of_mem _ hq))

/-- For integer endpoints in the exact range every pixel write of `DrawLine` lies
in the bounding box of the endpoints. -/
theorem DrawLine.points_int_box (ax ay bx by' : Int) (az bz : ℚ)
    (hr : exactInts ax ay bx by') :
    ∀ p ∈ DrawLine.points ⟨ax, ay, az⟩ ⟨bx, by', bz⟩,
      min ax bx ≤ p.1 ∧ p.1 ≤ max ax bx ∧ min ay by' ≤ p.2 ∧ p.2 ≤ max ay by' := by
  intro p hp
  obtain ⟨steep, X0, Y0, X1, Y1, hprep, _, hX, hA, _, hends, hD, hX0, hX1⟩ :=
    DrawLine.prepareInt_exact ax ay bx by' hr
  obtain ⟨hlen, hall⟩ := DrawLine.points_int_enum ax ay bx by' az bz steep X0 Y0 X1 Y1 hr hprep
    hX hA hD hX0 hX1
  obtain ⟨i, hi, hpi⟩ := List.getElem_of_mem hp
  rw [hlen] at hi
  obtain ⟨m', h1, h2, h3, _, _, _⟩ := hall i hi
  rw [List.getElem?_eq_getElem (by rw [hlen]; exact hi), hpi] at h1
  obtain rfl := Option.some.inj h1
  have hi' : (i : Int) ≤ X1 - X0 := by omega
  cases steep <;> simp only [unswap, Bool.false_eq_true, if_false, if_true, Prod.mk.injEq] at hends ⊢
  all_goals
    by_cases hlt : Y0 < Y1
    · rw [abs_of_pos (by omega : (0 : Int) < Y1 - Y0)] at h3
      simp only [if_pos hlt]
      omega
    · rw [abs_of_nonpos (by omega : Y1 - Y0 ≤ 0)] at h3
      simp only [if_neg hlt]
      omega

/-- C2 (as amended): for integer endpoints in the range where the float
subtractions of `DrawLine` are exact (coordinates below `2 ^ 24` in magnitude,
differences at most `2 ^ 24`) that both lie beyond the same edge of the pixel
rectangle (both left of it, both right of it, both below it or both above it),
`DrawLine` leaves the renderer state, hence the pixel buffer, unchanged. -/
theorem DrawLine_unchanged_of_same_side (r : State) (ax ay bx by' : Int) (az bz : ℚ) (c : vec4)
    (hr : exactInts ax ay bx by')
    (h : (ax < 0 ∧ bx < 0) ∨ (r.w ≤ ax ∧ r.w ≤ bx) ∨ (ay < 0 ∧ by' < 0) ∨
      (r.h ≤ ay ∧ r.h ≤ by')) :
    DrawLine r ⟨ax, ay, az⟩ ⟨bx, by', bz⟩ c = r := by
  rw [DrawLine_eq_setPixels]
  apply setPixels_of_all_outside
  intro p hp
  have hbox := DrawLine.points_int_box ax ay bx by' az bz hr p hp
  omega

/-- Witness of `DrawLine_unchanged_of_same_side`: a segment left of a 3x3 buffer. -/
theorem DrawLine_unchanged_of_same_side_witness :
    exactInts (-2) 0 (-1) 5 ∧ ((-2 : Int) < 0 ∧ (-1 : Int) < 0) ∧
      DrawLine (create 3 3) ⟨((-2 : Int) : ℚ), ((0 : Int) : ℚ), 0⟩
        ⟨((-1 : Int) : ℚ), ((5 : Int) : ℚ), 0⟩ ⟨1, 1, 1, 1⟩ = create 3 3 :=
  ⟨by decide, by decide,
    DrawLine_unchanged_of_same_side (create 3 3) (-2) 0 (-1) 5 0 0 ⟨1, 1, 1, 1⟩ (by decide)
      (Or.inl (by decide))⟩


/-! ### A walk beyond the exact range -/

/-- The float subtractions of `DrawLine` on the x coordinates `-16777216` and
`1`: the exact difference `16777217` needs 25 significant bits and is rounded to
`16777216`. -/
theorem f32sub_long :
    f32sub 1 (-16777216) = 16777216 ∧ f32sub (-16777216) 1 = -16777216 := by
  constructor <;> decide!

/-- The pixel writes of `DrawLine` in terms of the prepared endpoints. -/
theorem DrawLine.points_of_prepare (p1 p2 : vec3) (steep : Bool) (x0 y0 x1 y1 : ℚ)
    (h : DrawLine.prepare p1 p2 = (steep, x0, y0, x1, y1)) :
    DrawLine.points p1 p2 =
      DrawLine.loopPoints steep x1 y0 y1 (truncToInt (f32sub x1 x0))
        (|truncToInt (f32sub y1 y0)| * 2) (DrawLine.iterations x0 x1)
        (truncToInt x0) (truncToInt y0) 0 := by
  unfold DrawLine.points
  rw [h]

/-- The swaps of `DrawLine` on the endpoints `(-16777216, Y0)` and
`(1, Y0 + 10000000)`: not steep, no exchange. -/
theorem DrawLine.prepare_long (Y0 : Int) (az bz : ℚ) :
    DrawLine.prepare ⟨-16777216, (Y0 : ℚ), az⟩ ⟨1, ((Y0 + 10000000 : Int) : ℚ), bz⟩ =
      (false, -16777216, (Y0 : ℚ), 1, ((Y0 + 10000000 : Int) : ℚ)) := by
  have hdy : |Y0 - (Y0 + 10000000)| ≤ 2 ^ 24 := by
    rw [show Y0 - (Y0 + 10000000) = -10000000 by ring]; decide
  unfold DrawLine.prepare
  simp only [f32sub_long.2, f32sub_intCast Y0 (Y0 + 10000000) hdy]
  have h1 : ¬ (|(-16777216 : ℚ)| < |((Y0 - (Y0 + 10000000) : Int) : ℚ)|) := by
    rw [show Y0 - (Y0 + 10000000) = -10000000 by ring]
    norm_num
  have h2 : ¬ ((-16777216 : ℚ) > 1) := by norm_num
  simp only [h1, decide_False, Bool.false_eq_true, if_false, h2]

/-- The walk of `DrawLine` from `(-16777216, Y0)` to `(1, Y0 + 10000000)`: the
rounded `dx` is `16777216` while the loop makes `16777218` steps, so the
accumulator advances the minor coordinate once more than the minor delta and the
last write is at `(1, Y0 + 10000001)`. -/
theorem DrawLine.points_long (Y0 : Int) (az bz : ℚ) :
    (DrawLine.points ⟨-16777216, (Y0 : ℚ), az⟩
      ⟨1, ((Y0 + 10000000 : Int) : ℚ), bz⟩).length = 16777218 ∧
    (DrawLine.points ⟨-16777216, (Y0 : ℚ), az⟩
      ⟨1, ((Y0 + 10000000 : Int) : ℚ), bz⟩)[16777217]? = some (1, Y0 + 10000001) := by
  have hdy' : |Y0 + 10000000 - Y0| ≤ 2 ^ 24 := by
    rw [show Y0 + 10000000 - Y0 = 10000000 by ring]; decide
  have hprep := DrawLine.prepare_long Y0 az bz
  have ht0 : truncToInt (-16777216 : ℚ) = -16777216 := by decide!
  have ht1 : truncToInt (16777216 : ℚ) = 16777216 := by decide!
  have hit : DrawLine.iterations (-16777216) 1 = 16777220 := by decide!
  have hpts : DrawLine.points ⟨-16777216, (Y0 : ℚ), az⟩ ⟨1, ((Y0 + 10000000 : Int) : ℚ), bz⟩ =
      DrawLine.loopPoints false 1 (Y0 : ℚ) ((Y0 + 10000000 : Int) : ℚ) 16777216
        (10000000 * 2) 16777220 (-16777216) Y0 0 := by
    rw [DrawLine.points_of_prepare _ _ _ _ _ _ _ hprep, f32sub_long.1,
      f32sub_intCast (Y0 + 10000000) Y0 hdy', truncToInt_intCast, truncToInt_intCast, ht0, ht1,
      hit, show Y0 + 10000000 - Y0 = 10000000 by ring,
      abs_of_nonneg (by decide : (0 : Int) ≤ 10000000)]
  have hguard : ∀ k : Int, 0 ≤ k → k ≤ 16777217 + 1 →
      (roundF32 ((-16777216 + k : Int) : ℚ) ≤ (1 : ℚ) ↔ k ≤ 16777217) := by
    intro k hk hk'
    rw [roundF32_intCast_exact (-16777216 + k) (by rw [abs_le]; constructor <;> omega),
      ← Int.cast_one, Int.cast_le]
    omega
  obtain ⟨hlen, hall⟩ := DrawLine.loopPoints_walk false 1 (Y0 : ℚ) ((Y0 + 10000000 : Int) : ℚ)
    (-16777216) Y0 16777217 16777216 10000000 (by decide) (by decide) hguard
    16777220 (-16777216) Y0 0 0 0 (by ring) (by ring) le_rfl (by decide) le_rfl (by ring)
    (by decide) (Or.inl (by decide)) (by decide)
  rw [hpts]
  refine ⟨by rw [hlen]; rfl, ?_⟩
  obtain ⟨m', h1, h2, h3, h4, _⟩ := hall 16777217 (by decide)
  have hs : (if ((Y0 + 10000000 : Int) : ℚ) > (Y0 : ℚ) then (1 : Int) else -1) = 1 := by
    rw [if_pos]
    rw [gt_iff_lt, Int.cast_lt]; omega
  rw [hs] at h1
  norm_num at h3 h4
  have hm : m' = 10000001 := by omega
  rw [h1, hm]
  simp [unswap]

/-- When the last of a sequence of pixel writes is inside the rectangle, the
entry of that pixel holds the colour afterwards. -/
theorem setPixels_last_inside (r : State) (c : vec4) (ps : List (Int × Int)) (x y : Int)
    (hlast : ps.getLast? = some (x, y)) (hx0 : 0 ≤ x) (hx1 : x < r.w) (hy0 : 0 ≤ y)
    (hy1 : y < r.h) (hL : (y * r.w + x).toNat < r.frameBuffer.length) :
    (setPixels r c ps).frameBuffer[(y * r.w + x).toNat]? = some c := by
  obtain ⟨init, rfl⟩ := List.getLast?_eq_some_iff.1 hlast
  unfold setPixels
  rw [List.foldl_append]
  change (SetPixel (setPixels r c init) x y c).frameBuffer[(y * r.w + x).toNat]? = some c
  obtain ⟨hw, hh⟩ := setPixels_w_h c init r
  rw [SetPixel_of_inside _ x y c hx0 (by rw [hw]; exact hx1) hy0 (by rw [hh]; exact hy1), hw]
  exact List.getElem?_set_self (by rw [setPixels_length]; exact hL)

/-- C2 fails as stated: on a 3x3 buffer the endpoints `(-1,1)` and `(3,1)` both
lie outside the pixel rectangle, yet `DrawLine` between them writes the three
pixels of row 1.  Likewise the endpoints `(-1/2,0)` and `(-1/2,2)` lie outside
(left of the rectangle), yet the walk, made on truncated coordinates, writes
the three pixels of column 0.  And on a 4x4 buffer the integer endpoints
`(-16777216, -10000001)` and `(1, -1)` both lie below the rectangle, yet the
last write is at `(1, 0)`: the float subtraction `x1 - x0` rounds `16777217` to
`16777216`. -/
theorem DrawLine_endpoints_outside_counterexample :
    (¬ insideBuffer (create 3 3) ⟨-1, 1, 0⟩ ∧ ¬ insideBuffer (create 3 3) ⟨3, 1, 0⟩ ∧
      (DrawLine (create 3 3) ⟨-1, 1, 0⟩ ⟨3, 1, 0⟩ ⟨1, 1, 1, 1⟩).frameBuffer =
        [vec4.zero, vec4.zero, vec4.zero, ⟨1, 1, 1, 1⟩, ⟨1, 1, 1, 1⟩, ⟨1, 1, 1, 1⟩,
          vec4.zero, vec4.zero, vec4.zero] ∧
      (DrawLine (create 3 3) ⟨-1, 1, 0⟩ ⟨3, 1, 0⟩ ⟨1, 1, 1, 1⟩).frameBuffer ≠
        (create 3 3).frameBuffer) ∧
    (¬ insideBuffer (create 3 3) ⟨-1 / 2, 0, 0⟩ ∧ ¬ insideBuffer (create 3 3) ⟨-1 / 2, 2, 0⟩ ∧
      (DrawLine (create 3 3) ⟨-1 / 2, 0, 0⟩ ⟨-1 / 2, 2, 0⟩ ⟨1, 1, 1, 1⟩).frameBuffer =
        [⟨1, 1, 1, 1⟩, vec4.zero, vec4.zero, ⟨1, 1, 1, 1⟩, vec4.zero, vec4.zero,
          ⟨1, 1, 1, 1⟩, vec4.zero, vec4.zero]) ∧
    (¬ insideBuffer (create 4 4) ⟨-16777216, -10000001, 0⟩ ∧
      ¬ insideBuffer (create 4 4) ⟨1, -1, 0⟩ ∧
      (DrawLine (create 4 4) ⟨-16777216, -10000001, 0⟩ ⟨1, -1, 0⟩ ⟨1, 1, 1, 1⟩).frameBuffer[1]? =
        some ⟨1, 1, 1, 1⟩ ∧
      (create 4 4).frameBuffer[1]? = some vec4.zero) := by
  refine ⟨⟨?_, ?_, ?_, ?_⟩, ⟨?_, ?_, ?_⟩, ?_, ?_, ?_, rfl⟩
  · simp [insideBuffer, create]
  · simp [insideBuffer, create]
  · decide!
  · decide!
  · norm_num [insideBuffer, create]
  · norm_num [insideBuffer, create]
  · decide!
  · norm_num [insideBuffer, create]
  · norm_num [insideBuffer, create]
  · have hv1 : (⟨-16777216, -10000001, 0⟩ : vec3) =
        ⟨-16777216, ((-10000001 : Int) : ℚ), 0⟩ := by norm_num
    have hv2 : (⟨1, -1, 0⟩ : vec3) = ⟨1, ((-10000001 + 10000000 : Int) : ℚ), 0⟩ := by norm_num
    obtain ⟨hlen, hl⟩ := DrawLine.points_long (-10000001) 0 0
    rw [show (-10000001 : Int) + 10000001 = 0 by decide] at hl
    rw [hv1, hv2, DrawLine_eq_setPixels]
    have h := setPixels_last_inside (create 4 4) ⟨1, 1, 1, 1⟩ _ 1 0
      (by rw [List.getLast?_eq_getElem?, hlen]; exact hl) (by decide) (by decide) (by decide)
      (by decide) (by decide)
    rw [show ((0 : Int) * (create 4 4).w + 1).toNat = 1 by decide] at h
    exact h


/-! ### One pixel per step and Bresenham accuracy -/

/-- C17 (as amended): one pixel per step, endpoint to endpoint.  For integer
endpoints in the range where the float arithmetic of `DrawLine` is exact
(coordinates below `2 ^ 24` in magnitude, differences at most `2 ^ 24`),
`DrawLine` requests exactly `max(|x1-x0|, |y1-y0|) + 1` pixel writes; the `i`-th
write has major coordinate `lowest + i`; the first write is at the endpoint with
the lower major coordinate and the last write is at the other endpoint. -/
theorem DrawLine_one_pixel_per_step (ax ay bx by' : Int) (az bz : ℚ)
    (hr : exactInts ax ay bx by') :
    ∃ (steep : Bool) (first last : Int × Int),
      steep = decide (|ax - bx| < |ay - by'|) ∧
      ((first = (ax, ay) ∧ last = (bx, by')) ∨ (first = (bx, by') ∧ last = (ax, ay))) ∧
      majorOf steep first ≤ majorOf steep last ∧
      (DrawLine.points ⟨ax, ay, az⟩ ⟨bx, by', bz⟩).length =
        (max |bx - ax| |by' - ay|).toNat + 1 ∧
      (∀ i : Nat, i < (DrawLine.points ⟨ax, ay, az⟩ ⟨bx, by', bz⟩).length →
        ∃ p, (DrawLine.points ⟨ax, ay, az⟩ ⟨bx, by', bz⟩)[i]? = some p ∧
          majorOf steep p = majorOf steep first + i) ∧
      (DrawLine.points ⟨ax, ay, az⟩ ⟨bx, by', bz⟩).head? = some first ∧
      (DrawLine.points ⟨ax, ay, az⟩ ⟨bx, by', bz⟩).getLast? = some last ∧
      ∀ (r : State) (c : vec4), DrawLine r ⟨ax, ay, az⟩ ⟨bx, by', bz⟩ c =
        setPixels r c (DrawLine.points ⟨ax, ay, az⟩ ⟨bx, by', bz⟩) := by
  obtain ⟨steep, X0, Y0, X1, Y1, hprep, hsteep, hX, hA, hD, hends, hD24, hX0, hX1⟩ :=
    DrawLine.prepareInt_exact ax ay bx by' hr
  obtain ⟨hlen, hall⟩ := DrawLine.points_int_enum ax ay bx by' az bz steep X0 Y0 X1 Y1 hr hprep
    hX hA hD24 hX0 hX1
  have hn : (X1 - X0 + 1).toNat = (X1 - X0).toNat + 1 := by omega
  have hfirst : (DrawLine.points ⟨ax, ay, az⟩ ⟨bx, by', bz⟩)[0]? = some (unswap steep X0 Y0) := by
    obtain ⟨m', h1, _, _, _, _, h6⟩ := hall 0 (by omega)
    rw [h6 rfl] at h1
    simpa using h1
  have hlast : (DrawLine.points ⟨ax, ay, az⟩ ⟨bx, by', bz⟩)[(X1 - X0).toNat]? =
      some (unswap steep X1 Y1) := by
    obtain ⟨m', h1, h2, h3, h4, h5, _⟩ := hall (X1 - X0).toNat (by omega)
    rw [Int.toNat_of_nonneg (by omega)] at h1 h4 h5
    have hm : m' = |Y1 - Y0| :=
      last_minor_offset (X1 - X0) (|Y1 - Y0|) m' (by omega) hA (abs_nonneg _) h3 h4 h5
    rw [h1, hm]
    congr 2
    · ring
    · by_cases hlt : Y0 < Y1
      · rw [if_pos hlt, abs_of_pos (by omega)]; ring
      · rw [if_neg hlt, abs_of_nonpos (by omega)]; ring
  refine ⟨steep, unswap steep X0 Y0, unswap steep X1 Y1, hsteep, hends, ?_, ?_, ?_, ?_, ?_,
    fun r c => DrawLine_eq_setPixels r _ _ c⟩
  · rw [majorOf_unswap, majorOf_unswap]; exact hX
  · rw [hlen, hn, hD]
  · intro i hi
    rw [hlen] at hi
    obtain ⟨m', h1, _⟩ := hall i hi
    exact ⟨_, h1, by rw [majorOf_unswap, majorOf_unswap]⟩
  · rw [List.head?_eq_getElem?, hfirst]
  · rw [List.getLast?_eq_getElem?, hlen, hn, Nat.add_sub_cancel, hlast]

/-- Witness of `DrawLine_one_pixel_per_step`: the segment `(0,0)-(3,1)` has four
pixel writes. -/
theorem DrawLine_one_pixel_per_step_witness :
    exactInts 0 0 3 1 ∧
      (DrawLine.points ⟨((0 : Int) : ℚ), ((0 : Int) : ℚ), 0⟩
        ⟨((3 : Int) : ℚ), ((1 : Int) : ℚ), 0⟩).length =
        (max |(3 : Int) - 0| |(1 : Int) - 0|).toNat + 1 :=
  ⟨by decide, by
    obtain ⟨_, _, _, _, _, _, h, _⟩ := DrawLine_one_pixel_per_step 0 0 3 1 0 0 (by decide)
    exact h⟩

/-- C17 fails as stated: the integer endpoints `(-16777216, -10000000)` and
`(1, 0)` are floats, but `x1 - x0 = 16777217` is not, so `dx` is `16777216`; the
walk makes `16777218` writes, one per value of `x`, and the last one is at
`(1, 1)`, not at the endpoint `(1, 0)`. -/
theorem DrawLine_last_write_counterexample :
    (DrawLine.points ⟨-16777216, -10000000, 0⟩ ⟨1, 0, 0⟩).length = 16777218 ∧
    (DrawLine.points ⟨-16777216, -10000000, 0⟩ ⟨1, 0, 0⟩).getLast? = some (1, 1) ∧
    ∀ (r : State) (c : vec4), DrawLine r ⟨-16777216, -10000000, 0⟩ ⟨1, 0, 0⟩ c =
      setPixels r c (DrawLine.points ⟨-16777216, -10000000, 0⟩ ⟨1, 0, 0⟩) := by
  have hv1 : (⟨-16777216, -10000000, 0⟩ : vec3) = ⟨-16777216, ((-10000000 : Int) : ℚ), 0⟩ := by
    norm_num
  have hv2 : (⟨1, 0, 0⟩ : vec3) = ⟨1, ((-10000000 + 10000000 : Int) : ℚ), 0⟩ := by norm_num
  obtain ⟨hlen, hl⟩ := DrawLine.points_long (-10000000) 0 0
  rw [show (-10000000 : Int) + 10000001 = 1 by decide] at hl
  refine ⟨?_, ?_, fun r c => DrawLine_eq_setPixels r _ _ c⟩
  · rw [hv1, hv2]; exact hlen
  · rw [hv1, hv2, List.getLast?_eq_getElem?, hlen]; exact hl

/-- Two consecutive minor offsets of the walk differ by zero or one. -/
theorem minor_step (D A k m1 m2 : Int) (hAD : A ≤ D) (hA : 0 ≤ A)
    (hup1 : 2 * A * k - 2 * D * m1 ≤ D)
    (hlow1 : -D < 2 * A * k - 2 * D * m1 ∨ (D = 0 ∧ m1 = 0))
    (hup2 : 2 * A * (k + 1) - 2 * D * m2 ≤ D)
    (hlow2 : -D < 2 * A * (k + 1) - 2 * D * m2 ∨ (D = 0 ∧ m2 = 0)) :
    0 ≤ m2 - m1 ∧ m2 - m1 ≤ 1 := by
  rcases hlow1 with h1 | ⟨hD, h1⟩
  · rcases hlow2 with h2 | ⟨hD, _⟩
    · have hD : 0 < D := by omega
      constructor
      · by_contra hcon
        have h3 : 0 ≤ D * (m1 - m2 - 1) := mul_nonneg hD.le (by omega)
        nlinarith
      · by_contra hcon
        have h3 : 0 ≤ D * (m2 - m1 - 2) := mul_nonneg hD.le (by omega)
        nlinarith
    · omega
  · rcases hlow2 with h2 | ⟨_, h2⟩
    · omega
    · omega

/-- C18 (as amended): Bresenham accuracy.  For integer endpoints in the range
where the float arithmetic of `DrawLine` is exact (coordinates below `2 ^ 24` in
magnitude, differences at most `2 ^ 24`), with `(X0, Y0)` the starting
endpoint after the swaps, `D = X1 - X0` the major delta and `d = Y1 - Y0` the
minor delta, the `i`-th pixel written has major offset `k = i` and a minor offset
`m` with `2 * |D * m - d * k| ≤ |D|`, and consecutive written pixels differ by at
most 1 on the minor axis. -/
theorem DrawLine_bresenham_accuracy (ax ay bx by' : Int) (az bz : ℚ)
    (hr : exactInts ax ay bx by') :
    ∃ (steep : Bool) (X0 Y0 X1 Y1 : Int),
      DrawLine.prepare ⟨ax, ay, az⟩ ⟨bx, by', bz⟩ =
        (steep, (X0 : ℚ), (Y0 : ℚ), (X1 : ℚ), (Y1 : ℚ)) ∧
      (∀ (i : Nat) (p : Int × Int),
        (DrawLine.points ⟨ax, ay, az⟩ ⟨bx, by', bz⟩)[i]? = some p →
        majorOf steep p - X0 = i ∧
        2 * |(X1 - X0) * (minorOf steep p - Y0) - (Y1 - Y0) * (majorOf steep p - X0)| ≤
          |X1 - X0|) ∧
      (∀ (i : Nat) (p q : Int × Int),
        (DrawLine.points ⟨ax, ay, az⟩ ⟨bx, by', bz⟩)[i]? = some p →
        (DrawLine.points ⟨ax, ay, az⟩ ⟨bx, by', bz⟩)[i + 1]? = some q →
        |minorOf steep q - minorOf steep p| ≤ 1) := by
  obtain ⟨steep, X0, Y0, X1, Y1, hprep, _, hX, hA, _, _, hD24, hX0, hX1⟩ :=
    DrawLine.prepareInt_exact ax ay bx by' hr
  obtain ⟨hlen, hall⟩ := DrawLine.points_int_enum ax ay bx by' az bz steep X0 Y0 X1 Y1 hr hprep
    hX hA hD24 hX0 hX1
  have hlt : ∀ (i : Nat) (p : Int × Int),
      (DrawLine.points ⟨ax, ay, az⟩ ⟨bx, by', bz⟩)[i]? = some p → i < (X1 - X0 + 1).toNat := by
    intro i p hp
    rw [← hlen]
    exact (List.getElem?_eq_some.1 hp).1
  refine ⟨steep, X0, Y0, X1, Y1, by rw [DrawLine.prepare_intCast ax ay bx by' az bz hr.2.2.2.2.1 hr.2.2.2.2.2, hprep], ?_, ?_⟩
  · intro i p hp
    obtain ⟨m', h1, h2, h3, h4, h5, _⟩ := hall i (hlt i p hp)
    obtain rfl : unswap steep (X0 + i) (Y0 + (if Y0 < Y1 then 1 else -1) * m') = p :=
      Option.some.inj (h1.symm.trans hp)
    rw [majorOf_unswap, minorOf_unswap, abs_of_nonneg (by omega : (0 : Int) ≤ X1 - X0)]
    refine ⟨by ring, ?_⟩
    have hkey : |2 * ((X1 - X0) * m' - |Y1 - Y0| * i)| ≤ X1 - X0 := by
      rw [abs_le]
      rcases h5 with h5 | ⟨hD, hm⟩
      · constructor <;> nlinarith
      · have hA0 : |Y1 - Y0| = 0 := by
          have := abs_nonneg (Y1 - Y0); omega
        rw [hD, hm, hA0]; simp
    rw [abs_mul, abs_two] at hkey
    by_cases hlt' : Y0 < Y1
    · rw [if_pos hlt']
      rw [abs_of_pos (by omega : (0 : Int) < Y1 - Y0)] at hkey
      have : (X1 - X0) * (Y0 + 1 * m' - Y0) - (Y1 - Y0) * (X0 + ↑i - X0) =
          (X1 - X0) * m' - (Y1 - Y0) * i := by ring
      rw [this]; exact hkey
    · rw [if_neg hlt']
      rw [abs_of_nonpos (by omega : Y1 - Y0 ≤ 0)] at hkey
      have : (X1 - X0) * (Y0 + -1 * m' - Y0) - (Y1 - Y0) * (X0 + ↑i - X0) =
          -((X1 - X0) * m' - -(Y1 - Y0) * i) := by ring
      rw [this, abs_neg]; exact hkey
  · intro i p q hp hq
    obtain ⟨m1, h1, _, _, hup1, hlow1, _⟩ := hall i (hlt i p hp)
    obtain ⟨m2, h2, _, _, hup2, hlow2, _⟩ := hall (i + 1) (hlt (i + 1) q hq)
    obtain rfl : unswap steep (X0 + i) (Y0 + (if Y0 < Y1 then 1 else -1) * m1) = p :=
      Option.some.inj (h1.symm.trans hp)
    obtain rfl : unswap steep (X0 + (i + 1 : Nat))
        (Y0 + (if Y0 < Y1 then 1 else -1) * m2) = q :=
      Option.some.inj (h2.symm.trans hq)
    push_cast at hup2 hlow2
    obtain ⟨hd0, hd1⟩ := minor_step (X1 - X0) (|Y1 - Y0|) i m1 m2 hA (abs_nonneg _) hup1 hlow1
      hup2 hlow2
    rw [minorOf_unswap, minorOf_unswap, abs_le]
    by_cases hlt' : Y0 < Y1
    · simp only [if_pos hlt']; constructor <;> omega
    · simp only [if_neg hlt']; constructor <;> omega

/-- Witness of `DrawLine_bresenham_accuracy`: on the segment `(0,0)-(3,1)`
consecutive writes differ by at most 1 on the minor axis. -/
theorem DrawLine_bresenham_accuracy_witness :
    exactInts 0 0 3 1 ∧ ∃ (steep : Bool) (X0 Y0 X1 Y1 : Int),
      DrawLine.prepare ⟨((0 : Int) : ℚ), ((0 : Int) : ℚ), 0⟩
          ⟨((3 : Int) : ℚ), ((1 : Int) : ℚ), 0⟩ =
        (steep, (X0 : ℚ), (Y0 : ℚ), (X1 : ℚ), (Y1 : ℚ)) ∧
      ∀ (i : Nat) (p q : Int × Int),
        (DrawLine.points ⟨((0 : Int) : ℚ), ((0 : Int) : ℚ), 0⟩
          ⟨((3 : Int) : ℚ), ((1 : Int) : ℚ), 0⟩)[i]? = some p →
        (DrawLine.points ⟨((0 : Int) : ℚ), ((0 : Int) : ℚ), 0⟩
          ⟨((3 : Int) : ℚ), ((1 : Int) : ℚ), 0⟩)[i + 1]? = some q →
        |minorOf steep q - minorOf steep p| ≤ 1 :=
  ⟨by decide, by
    obtain ⟨steep, X0, Y0, X1, Y1, h1, _, h3⟩ :=
      DrawLine_bresenham_accuracy 0 0 3 1 0 0 (by decide)
    exact ⟨steep, X0, Y0, X1, Y1, h1, h3⟩⟩

/-- C18 fails as stated: on the integer endpoints `(-16777216, -10000000)` and
`(1, 0)` the walk starts at `(-16777216, -10000000)` with `D = 16777217` and
`d = 10000000`, and its last write `(1, 1)` has `k = 16777217`, `m = 10000001`,
so `2 * |D * m - d * k| = 33554434` exceeds `|D| = 16777217`: the float
subtraction rounded `dx` to `16777216`. -/
theorem DrawLine_accuracy_counterexample :
    DrawLine.prepare ⟨-16777216, -10000000, 0⟩ ⟨1, 0, 0⟩ =
      (false, ((-16777216 : Int) : ℚ), ((-10000000 : Int) : ℚ), ((1 : Int) : ℚ),
        ((0 : Int) : ℚ)) ∧
    (DrawLine.points ⟨-16777216, -10000000, 0⟩ ⟨1, 0, 0⟩)[16777217]? = some (1, 1) ∧
    majorOf false (1, 1) - (-16777216) = 16777217 ∧
    minorOf false (1, 1) - (-10000000) = 10000001 ∧
    ¬ 2 * |((1 : Int) - (-16777216)) * (minorOf false (1, 1) - (-10000000)) -
        (0 - (-10000000)) * (majorOf false (1, 1) - (-16777216))| ≤ |(1 : Int) - (-16777216)| := by
  have hv1 : (⟨-16777216, -10000000, 0⟩ : vec3) = ⟨-16777216, ((-10000000 : Int) : ℚ), 0⟩ := by
    norm_num
  have hv2 : (⟨1, 0, 0⟩ : vec3) = ⟨1, ((-10000000 + 10000000 : Int) : ℚ), 0⟩ := by norm_num
  obtain ⟨_, hl⟩ := DrawLine.points_long (-10000000) 0 0
  rw [show (-10000000 : Int) + 10000001 = 1 by decide] at hl
  refine ⟨?_, ?_, by decide, by decide, by decide⟩
  · rw [hv1, hv2, DrawLine.prepare_long (-10000000) 0 0]
    norm_num
  · rw [hv1, hv2]; exact hl


/-! ### Truncation of fractional endpoints -/

theorem Upload.run_fst (r : State) (u : Upload) :
    (u.run r).1 = (r.bufferCount + 1) % UINT_MODULUS := by
  cases u <;> rfl

theorem Upload.run_bufferCount (r : State) (u : Upload) :
    (u.run r).2.bufferCount = (r.bufferCount + 1) % UINT_MODULUS := by
  cases u <;> rfl

theorem runUploads_cons (r : State) (u : Upload) (us : List Upload) :
    (runUploads r (u :: us)).1 = (u.run r).1 :: (runUploads (u.run r).2 us).1 := rfl

theorem runUploads_length (us : List Upload) : ∀ r : State, (runUploads r us).1.length = us.length := by
  induction us with
  | nil => intro r; rfl
  | cons u us ih => intro r; rw [runUploads_cons, List.length_cons, ih, List.length_cons]

/-- The `i`-th handle returned by a sequence of uploads is the counter advanced
`i + 1` times, modulo `2 ^ 32`. -/
theorem runUploads_getElem? (us : List Upload) :
    ∀ (r : State) (i : Nat), i < us.length →
      (runUploads r us).1[i]? = some ((r.bufferCount + i + 1) % UINT_MODULUS) := by
  induction us with
  | nil => intro r i hi; simp at hi
  | cons u us ih =>
    intro r i hi
    rw [runUploads_cons]
    cases i with
    | zero => rw [List.getElem?_cons_zero, Upload.run_fst]
    | succ j =>
      rw [List.getElem?_cons_succ, ih _ j (by simpa using hi), Upload.run_bufferCount]
      congr 1
      simp only [UINT_MODULUS]
      omega

/-- Without wrap-around the handles are `counter + 1, ..., counter + N`. -/
theorem runUploads_eq_range' (us : List Upload) :
    ∀ r : State, r.bufferCount + us.length < UINT_MODULUS →
      (runUploads r us).1 = List.range' (r.bufferCount + 1) us.length := by
  induction us with
  | nil => intro r _; rfl
  | cons u us ih =>
    intro r h
    rw [List.length_cons] at h
    have hmod : (r.bufferCount + 1) % UINT_MODULUS = r.bufferCount + 1 :=
      Nat.mod_eq_of_lt (by omega)
    rw [runUploads_cons, Upload.run_fst, hmod, List.length_cons, List.range'_succ,
      ih _ (by rw [Upload.run_bufferCount, hmod]; omega), Upload.run_bufferCount, hmod]

/-- C4 (as amended): for every state and every sequence of `N` uploads, in any
mix of `UploadVertices` and `UploadIndices`, such that the 32-bit counter does
not wrap (`counter + N < 2 ^ 32`; from a fresh renderer: `N < 2 ^ 32`), the `N`
returned handles are pairwise distinct and none of them is zero. -/
theorem runUploads_handles_distinct_nonzero (r : State) (us : List Upload)
    (h : r.bufferCount + us.length < UINT_MODULUS) :
    (runUploads r us).1.Nodup ∧ (∀ a ∈ (runUploads r us).1, a ≠ 0) ∧
      (runUploads r us).1.length = us.length := by
  rw [runUploads_eq_range' us r h]
  refine ⟨List.nodup_range' _ _, ?_, List.length_range' _ _ _⟩
  intro a ha
  rw [List.mem_range'_1] at ha
  omega

/-- Witness of `runUploads_handles_distinct_nonzero`: three mixed uploads on a
fresh renderer. -/
theorem runUploads_handles_distinct_nonzero_witness :
    (create 4 4).bufferCount +
        [Upload.vertices [], Upload.indices [0, 1, 2], Upload.vertices []].length <
          UINT_MODULUS ∧
      (runUploads (create 4 4)
        [Upload.vertices [], Upload.indices [0, 1, 2], Upload.vertices []]).1.Nodup :=
  ⟨by decide, (runUploads_handles_distinct_nonzero (create 4 4)
    [Upload.vertices [], Upload.indices [0, 1, 2], Upload.vertices []] (by decide)).1⟩

/-- C4 fails as stated: on a fresh renderer the last of `2 ^ 32` uploads returns
the handle zero, the `unsigned int` counter having wrapped. -/
theorem runUploads_wraps_to_zero_counterexample :
    (runUploads (create 4 4) (List.replicate 4294967296 (Upload.indices []))).1[4294967295]? =
        some 0 ∧
      0 ∈ (runUploads (create 4 4) (List.replicate 4294967296 (Upload.indices []))).1 := by
  have h := runUploads_getElem? (List.replicate 4294967296 (Upload.indices [])) (create 4 4)
    4294967295 (by rw [List.length_replicate]; decide)
  have h0 : ((create 4 4).bufferCount + 4294967295 + 1) % UINT_MODULUS = 0 := by decide
  rw [h0] at h
  exact ⟨h, List.getElem?_mem h⟩

/-- C5 (as amended): from every state, `UploadVertices(data)` returns the handle
`(counter + 1) mod 2 ^ 32` (the incremented `unsigned int` counter, which is also
the new counter value); afterwards the vertex store maps that handle to `data`,
the vertex binding slot is zero whatever it held before, and the index binding
slot and the index store are unchanged; symmetrically for `UploadIndices` with
the kinds exchanged. -/
theorem Upload_postcondition (r : State) (vertexData : List Vertex) (indexData : List Nat) :
    ((UploadVertices r vertexData).1 = (r.bufferCount + 1) % UINT_MODULUS ∧
      (UploadVertices r vertexData).2.bufferCount = (UploadVertices r vertexData).1 ∧
      (UploadVertices r vertexData).2.verticesMap (UploadVertices r vertexData).1 =
        some vertexData ∧
      (UploadVertices r vertexData).2.activeVertexBuffer = 0 ∧
      (UploadVertices r vertexData).2.activeIndexBuffer = r.activeIndexBuffer ∧
      (UploadVertices r vertexData).2.indicesMap = r.indicesMap) ∧
    ((UploadIndices r indexData).1 = (r.bufferCount + 1) % UINT_MODULUS ∧
      (UploadIndices r indexData).2.bufferCount = (UploadIndices r indexData).1 ∧
      (UploadIndices r indexData).2.indicesMap (UploadIndices r indexData).1 = some indexData ∧
      (UploadIndices r indexData).2.activeIndexBuffer = 0 ∧
      (UploadIndices r indexData).2.activeVertexBuffer = r.activeVertexBuffer ∧
      (UploadIndices r indexData).2.verticesMap = r.verticesMap) := by
  refine ⟨⟨rfl, rfl, ?_, rfl, rfl, rfl⟩, ⟨rfl, rfl, ?_, rfl, rfl, rfl⟩⟩
  · simp [UploadVertices, GenerateBuffer, BindVertexBuffer, UnbindVertexBuffer]
  · simp [UploadIndices, GenerateBuffer, BindIndexBuffer, UnbindIndexBuffer]

/-- C5 fails as stated: when the counter holds `2 ^ 32 - 1`, `UploadVertices`
returns the handle `0`, not `counter + 1`. -/
theorem UploadVertices_handle_counterexample :
    (UploadVertices { create 4 4 with bufferCount := 4294967295 } []).1 = 0 ∧
      (UploadVertices { create 4 4 with bufferCount := 4294967295 } []).1 ≠
        ({ create 4 4 with bufferCount := 4294967295 } : State).bufferCount + 1 := by
  constructor <;> decide

/-- C6 fails as stated: the one-element index sequence `[7]`, whose length is
not divisible by 3, is accepted by `UploadIndices` on a fresh renderer: handle
`1` is returned and `[7]` is stored under it. -/
theorem UploadIndices_accepts_partial_triangle_counterexample :
    ¬ (3 ∣ [7].length) ∧ (UploadIndices (create 4 4) [7]).1 = 1 ∧
      (UploadIndices (create 4 4) [7]).2.indicesMap 1 = some [7] := by
  decide

/-- C6 (as amended): `UploadIndices` makes no length check.  For every index
sequence, whatever its length, the sequence is stored unchanged under the
returned handle, and binding that handle makes it the index buffer `Draw` reads. -/
theorem UploadIndices_stores_any_length (r : State) (indexData : List Nat) :
    (UploadIndices r indexData).2.indicesMap (UploadIndices r indexData).1 = some indexData ∧
      boundIndices (BindIndexBuffer (UploadIndices r indexData).2 (UploadIndices r indexData).1) =
        indexData := by
  have h : (UploadIndices r indexData).2.indicesMap (UploadIndices r indexData).1 =
      some indexData := by
    simp [UploadIndices, GenerateBuffer, BindIndexBuffer, UnbindIndexBuffer]
  refine ⟨h, ?_⟩
  unfold boundIndices mapIndex
  simp only [BindIndexBuffer]
  rw [h]


/-! ### The frame driver -/

theorem DrawLine_w (r : State) (p1 p2 : vec3) (c : vec4) : (DrawLine r p1 p2 c).w = r.w := by
  rw [DrawLine_eq_setPixels]; exact (setPixels_w_h c _ r).1

theorem DrawLine_h (r : State) (p1 p2 : vec3) (c : vec4) : (DrawLine r p1 p2 c).h = r.h := by
  rw [DrawLine_eq_setPixels]; exact (setPixels_w_h c _ r).2

theorem drawLines_append (r : State) (c1 c2 : List LineCall) :
    drawLines r (c1 ++ c2) = drawLines (drawLines r c1) c2 := by
  unfold drawLines; rw [List.foldl_append]

/-- The body of the outer loop of `Draw` when its six reads succeed: the three
edge calls are made on the current state and logged. -/
theorem Draw.triangle_of_lookups (mvp : mat4) (vertices : List Vertex) (indices : List Nat)
    (i : Nat) (r : State) (i0 i1 i2 : Nat) (a b c : Vertex)
    (e0 : indices[i * 3]? = some i0) (e1 : indices[i * 3 + 1]? = some i1)
    (e2 : indices[i * 3 + 2]? = some i2) (ea : vertices[i0]? = some a)
    (eb : vertices[i1]? = some b) (ec : vertices[i2]? = some c) :
    Draw.triangle mvp vertices indices i r =
      some (drawLines r (triangleEdges mvp r.w r.h a b c), triangleEdges mvp r.w r.h a b c) := by
  unfold Draw.triangle
  rw [e0, e1, e2]
  simp only
  rw [ea, eb, ec]
  rfl

/-- With valid indices the body of the outer loop succeeds for every triangle
`i < size / 3` and makes the three edge calls. -/
theorem Draw.triangle_spec (mvp : mat4) (vertices : List Vertex) (indices : List Nat)
    (hvalid : ∀ j ∈ indices, j < vertices.length) (i : Nat) (hi : i < indices.length / 3)
    (r : State) :
    ∃ i0 i1 i2 a b c, indices[i * 3]? = some i0 ∧ indices[i * 3 + 1]? = some i1 ∧
      indices[i * 3 + 2]? = some i2 ∧ vertices[i0]? = some a ∧ vertices[i1]? = some b ∧
      vertices[i2]? = some c ∧
      Draw.triangle mvp vertices indices i r =
        some (drawLines r (triangleEdges mvp r.w r.h a b c), triangleEdges mvp r.w r.h a b c) := by
  have h0 : i * 3 < indices.length := by omega
  have h1 : i * 3 + 1 < indices.length := by omega
  have h2 : i * 3 + 2 < indices.length := by omega
  have hv0 := hvalid _ (List.getElem_mem h0)
  have hv1 := hvalid _ (List.getElem_mem h1)
  have hv2 := hvalid _ (List.getElem_mem h2)
  exact ⟨indices[i * 3], indices[i * 3 + 1], indices[i * 3 + 2], vertices[indices[i * 3]],
    vertices[indices[i * 3 + 1]], vertices[indices[i * 3 + 2]],
    List.getElem?_eq_getElem h0, List.getElem?_eq_getElem h1, List.getElem?_eq_getElem h2,
    List.getElem?_eq_getElem hv0, List.getElem?_eq_getElem hv1, List.getElem?_eq_getElem hv2,
    Draw.triangle_of_lookups mvp vertices indices i r _ _ _ _ _ _
      (List.getElem?_eq_getElem h0) (List.getElem?_eq_getElem h1) (List.getElem?_eq_getElem h2)
      (List.getElem?_eq_getElem hv0) (List.getElem?_eq_getElem hv1)
      (List.getElem?_eq_getElem hv2)⟩

theorem drawLines_w_h (calls : List LineCall) :
    ∀ r : State, (drawLines r calls).w = r.w ∧ (drawLines r calls).h = r.h := by
  induction calls with
  | nil => intro r; exact ⟨rfl, rfl⟩
  | cons c cs ih =>
    intro r
    have := ih (DrawLine r c.p1 c.p2 c.color)
    unfold drawLines at this ⊢
    rw [List.foldl_cons, this.1, this.2, DrawLine_w, DrawLine_h]
    exact ⟨rfl, rfl⟩

theorem triangleEdges_length (mvp : mat4) (w h : Int) (a b c : Vertex) :
    (triangleEdges mvp w h a b c).length = 3 := rfl

/-- The outer loop of `Draw` with valid indices: started at triangle `i` with
`fuel` triangles left it succeeds, appends `3 * fuel` calls to the log, ends in
the state obtained by making those calls, and the calls of the `j`-th remaining
triangle are the three edges of triangle `i + j`. -/
theorem Draw.loop_spec (mvp : mat4) (vertices : List Vertex) (indices : List Nat) (W H : Int)
    (hvalid : ∀ j ∈ indices, j < vertices.length) :
    ∀ (fuel i : Nat) (r : State) (log : List LineCall), i + fuel = indices.length / 3 →
      r.w = W → r.h = H →
      ∃ calls, Draw.loop mvp vertices indices fuel i r log =
          some (drawLines r calls, log ++ calls) ∧
        calls.length = 3 * fuel ∧
        ∀ j, j < fuel → ∀ i0 i1 i2 a b c, indices[(i + j) * 3]? = some i0 →
          indices[(i + j) * 3 + 1]? = some i1 → indices[(i + j) * 3 + 2]? = some i2 →
          vertices[i0]? = some a → vertices[i1]? = some b → vertices[i2]? = some c →
          (calls.drop (3 * j)).take 3 = triangleEdges mvp W H a b c := by
  intro fuel
  induction fuel with
  | zero =>
    intro i r log _ _ _
    exact ⟨[], by simp [Draw.loop, drawLines], rfl, fun j hj => absurd hj (Nat.not_lt_zero _)⟩
  | succ n ih =>
    intro i r log hfuel hw hh
    have hi : i < indices.length / 3 := by omega
    obtain ⟨i0, i1, i2, a, b, c, e0, e1, e2, ea, eb, ec, htri⟩ :=
      Draw.triangle_spec mvp vertices indices hvalid i hi r
    rw [hw, hh] at htri
    obtain ⟨calls, hloop, hlen, hcalls⟩ := ih (i + 1)
      (drawLines r (triangleEdges mvp W H a b c)) (log ++ triangleEdges mvp W H a b c)
      (by omega) (by rw [(drawLines_w_h _ r).1, hw]) (by rw [(drawLines_w_h _ r).2, hh])
    refine ⟨triangleEdges mvp W H a b c ++ calls, ?_, ?_, ?_⟩
    · unfold Draw.loop
      rw [if_pos hi, htri]
      simp only
      rw [hloop, drawLines_append, List.append_assoc]
    · rw [List.length_append, triangleEdges_length, hlen]; omega
    · intro j hj j0 j1 j2 a' b' c' f0 f1 f2 fa fb fc
      cases j with
      | zero =>
        simp only [Nat.add_zero] at f0 f1 f2
        obtain rfl : i0 = j0 := Option.some.inj (e0.symm.trans f0)
        obtain rfl : i1 = j1 := Option.some.inj (e1.symm.trans f1)
        obtain rfl : i2 = j2 := Option.some.inj (e2.symm.trans f2)
        obtain rfl : a = a' := Option.some.inj (ea.symm.trans fa)
        obtain rfl : b = b' := Option.some.inj (eb.symm.trans fb)
        obtain rfl : c = c' := Option.some.inj (ec.symm.trans fc)
        rw [Nat.mul_zero, List.drop_zero, List.take_append_of_le_length (by rw [triangleEdges_length])]
        exact List.take_of_length_le (by rw [triangleEdges_length])
      | succ k =>
        have hdrop : (triangleEdges mvp W H a b c ++ calls).drop (3 * (k + 1)) =
            calls.drop (3 * k) := by
          rw [List.drop_append_eq_append_drop, triangleEdges_length,
            List.drop_eq_nil_of_le (by rw [triangleEdges_length]; omega), List.nil_append]
          congr 1
        rw [hdrop]
        have hidx : i + (k + 1) = i + 1 + k := by omega
        rw [hidx] at f0 f1 f2
        exact hcalls k (by omega) j0 j1 j2 a' b' c' f0 f1 f2 fa fb fc

theorem mapIndex_fst_update_ne {κ α : Type} [DecidableEq κ] (m : κ → Option α) (k k' : κ)
    (d d' : α) (h : k' ≠ k) :
    (mapIndex (mapIndex m k d).2 k' d').1 = (mapIndex m k' d').1 := by
  unfold mapIndex
  cases hk : m k with
  | some v => rfl
  | none =>
    simp only [Function.update_noteq h]
    cases m k' <;> rfl

/-- `Draw` is its outer loop run on the bound buffers with the matrix product of
the three uniforms, from the state left by the lookups. -/
theorem Draw_eq_loop (r : State) :
    Draw r = Draw.loop (currentMvp r) (boundVertices r) (boundIndices r)
      ((boundIndices r).length / 3) 0 (afterLookups r) [] := by
  have hview : (mapIndex (mapIndex r.uniformM4 "modelMatrix" mat4.zero).2 "viewMatrix"
      mat4.zero).1 = readUniform r "viewMatrix" :=
    mapIndex_fst_update_ne _ _ _ _ _ (by decide)
  have hproj : (mapIndex (mapIndex (mapIndex r.uniformM4 "modelMatrix" mat4.zero).2 "viewMatrix"
      mat4.zero).2 "projectionMatrix" mat4.zero).1 = readUniform r "projectionMatrix" := by
    rw [mapIndex_fst_update_ne _ _ _ _ _ (by decide), mapIndex_fst_update_ne _ _ _ _ _ (by decide)]
    rfl
  unfold Draw currentMvp
  simp only
  rw [hview, hproj]
  rfl

/-- With every stored index in range `Draw` succeeds; the log it returns has
three calls per complete index triple, the final state is the lookup state with
the logged calls made in order, and the calls of triangle `i` are its three
edges. -/
theorem Draw_spec (r : State) (hvalid : ∀ j ∈ boundIndices r, j < (boundVertices r).length) :
    ∃ log, Draw r = some (drawLines (afterLookups r) log, log) ∧
      log.length = 3 * ((boundIndices r).length / 3) ∧
      ∀ i, i < (boundIndices r).length / 3 → ∀ i0 i1 i2 a b c,
        (boundIndices r)[i * 3]? = some i0 → (boundIndices r)[i * 3 + 1]? = some i1 →
        (boundIndices r)[i * 3 + 2]? = some i2 → (boundVertices r)[i0]? = some a →
        (boundVertices r)[i1]? = some b → (boundVertices r)[i2]? = some c →
        (log.drop (3 * i)).take 3 = triangleEdges (currentMvp r) r.w r.h a b c := by
  obtain ⟨calls, hloop, hlen, hcalls⟩ := Draw.loop_spec (currentMvp r) (boundVertices r)
    (boundIndices r) r.w r.h hvalid ((boundIndices r).length / 3) 0 (afterLookups r) []
    (Nat.zero_add _) rfl rfl
  refine ⟨calls, ?_, hlen, ?_⟩
  · rw [Draw_eq_loop, hloop, List.nil_append]
  · intro i hi i0 i1 i2 a b c e0 e1 e2 ea eb ec
    refine hcalls i hi i0 i1 i2 a b c ?_ ?_ ?_ ea eb ec
    · rw [Nat.zero_add]; exact e0
    · rw [Nat.zero_add]; exact e1
    · rw [Nat.zero_add]; exact e2

/-- C7: draw cardinality.  When the bound index buffer has length `3 * T` and
every index in it is valid for the bound vertex buffer, `Draw` succeeds and
makes exactly `3 * T` `DrawLine` invocations. -/
theorem Draw_cardinality (r : State) (T : Nat) (hlen : (boundIndices r).length = 3 * T)
    (hvalid : ∀ j ∈ boundIndices r, j < (boundVertices r).length) :
    ∃ r' log, Draw r = some (r', log) ∧ log.length = 3 * T := by
  obtain ⟨log, hdraw, hlog, _⟩ := Draw_spec r hvalid
  refine ⟨_, log, hdraw, ?_⟩
  rw [hlog, hlen]
  omega

theorem scenario_boundIndices : boundIndices scenario = [0, 1, 2] := by decide

theorem scenario_boundVertices : boundVertices scenario = scenarioVertices := by decide!

theorem scenario_currentMvp : currentMvp scenario = mat4.identity := by decide!

theorem scenario_afterLookups : afterLookups scenario = scenario := rfl

theorem scenario_frameBuffer : scenario.frameBuffer = List.replicate 10000 ⟨0, 0, 0, 1⟩ := by
  show List.map _ (List.replicate _ _) = _
  rw [List.map_replicate]
  rfl

/-- C10: viewport mapping.  For every width and height the viewport transform of
`Draw` maps the NDC point `(0,0,z)` to `(w/2, h/2)` for every `z`, `(-1,-1)` to
`(0,0)` and `(1,1)` to `(w,h)`, in exact arithmetic. -/
theorem viewport_mapping (w h : Int) (z : ℚ) :
    (viewport w h ⟨0, 0, z⟩).x = (w : ℚ) / 2 ∧ (viewport w h ⟨0, 0, z⟩).y = (h : ℚ) / 2 ∧
    (viewport w h ⟨-1, -1, z⟩).x = 0 ∧ (viewport w h ⟨-1, -1, z⟩).y = 0 ∧
    (viewport w h ⟨1, 1, z⟩).x = (w : ℚ) ∧ (viewport w h ⟨1, 1, z⟩).y = (h : ℚ) := by
  simp only [viewport]
  refine ⟨?_, ?_, ?_, ?_, ?_, ?_⟩ <;> ring

theorem drawLines_three (r : State) (p1 q1 p2 q2 p3 q3 : vec3) (c1 c2 c3 : vec4) :
    drawLines r [⟨p1, q1, c1⟩, ⟨p2, q2, c2⟩, ⟨p3, q3, c3⟩] =
      DrawLine (DrawLine (DrawLine r p1 q1 c1) p2 q2 c2) p3 q3 c3 := rfl

/-- The log of the single triangle of the scenario, for any state with the
scenario's buffers. -/
theorem scenario_loop (r : State) :
    Draw.loop mat4.identity scenarioVertices [0, 1, 2] ([0, 1, 2].length / 3) 0 r [] =
      some (drawLines r (triangleEdges mat4.identity r.w r.h ⟨⟨0, 1 / 2, 0⟩, red⟩
          ⟨⟨-1 / 2, -1 / 2, 0⟩, green⟩ ⟨⟨1 / 2, -1 / 2, 0⟩, blue⟩),
        triangleEdges mat4.identity r.w r.h ⟨⟨0, 1 / 2, 0⟩, red⟩
          ⟨⟨-1 / 2, -1 / 2, 0⟩, green⟩ ⟨⟨1 / 2, -1 / 2, 0⟩, blue⟩) := by
  show Draw.loop mat4.identity scenarioVertices [0, 1, 2] (0 + 1) 0 r [] = _
  unfold Draw.loop
  rw [if_pos (by decide), Draw.triangle_of_lookups mat4.identity scenarioVertices [0, 1, 2] 0 r
    0 1 2 ⟨⟨0, 1 / 2, 0⟩, red⟩ ⟨⟨-1 / 2, -1 / 2, 0⟩, green⟩ ⟨⟨1 / 2, -1 / 2, 0⟩, blue⟩
    rfl rfl rfl rfl rfl rfl]
  simp only [Draw.loop, List.nil_append]

theorem scenario_transform :
    transformVertex mat4.identity 100 100 ⟨0, 1 / 2, 0⟩ = ⟨50, 75, 13120307 / 262144⟩ ∧
    transformVertex mat4.identity 100 100 ⟨-1 / 2, -1 / 2, 0⟩ = ⟨25, 25, 13120307 / 262144⟩ ∧
    transformVertex mat4.identity 100 100 ⟨1 / 2, -1 / 2, 0⟩ = ⟨75, 25, 13120307 / 262144⟩ := by
  decide!

theorem scenario_edges :
    triangleEdges mat4.identity 100 100 ⟨⟨0, 1 / 2, 0⟩, red⟩ ⟨⟨-1 / 2, -1 / 2, 0⟩, green⟩
        ⟨⟨1 / 2, -1 / 2, 0⟩, blue⟩ =
      [⟨⟨50, 75, 13120307 / 262144⟩, ⟨25, 25, 13120307 / 262144⟩, red⟩,
        ⟨⟨25, 25, 13120307 / 262144⟩, ⟨75, 25, 13120307 / 262144⟩, green⟩,
        ⟨⟨75, 25, 13120307 / 262144⟩, ⟨50, 75, 13120307 / 262144⟩, blue⟩] := by
  obtain ⟨t0, t1, t2⟩ := scenario_transform
  simp only [triangleEdges, t0, t1, t2]

theorem scenario_w : scenario.w = 100 := rfl

theorem scenario_h : scenario.h = 100 := rfl

/-- C9: the end-to-end scenario.  On the 100x100 buffer cleared to opaque black,
with identity matrices, the red, green and blue vertices and indices `[0,1,2]`
bound, `Draw` makes exactly three `DrawLine` calls, `(50,75)-(25,25)` in red,
`(25,25)-(75,25)` in green and `(75,25)-(50,75)` in blue, and its final state is
the scenario state with those three lines drawn in that order. -/
theorem scenario_Draw :
    scenario.w = 100 ∧ scenario.h = 100 ∧
    scenario.frameBuffer = List.replicate 10000 ⟨0, 0, 0, 1⟩ ∧
    Draw scenario = some
      (DrawLine (DrawLine (DrawLine scenario ⟨50, 75, 13120307 / 262144⟩ ⟨25, 25, 13120307 / 262144⟩ red)
          ⟨25, 25, 13120307 / 262144⟩ ⟨75, 25, 13120307 / 262144⟩ green)
        ⟨75, 25, 13120307 / 262144⟩ ⟨50, 75, 13120307 / 262144⟩ blue,
       [⟨⟨50, 75, 13120307 / 262144⟩, ⟨25, 25, 13120307 / 262144⟩, red⟩,
        ⟨⟨25, 25, 13120307 / 262144⟩, ⟨75, 25, 13120307 / 262144⟩, green⟩,
        ⟨⟨75, 25, 13120307 / 262144⟩, ⟨50, 75, 13120307 / 262144⟩, blue⟩]) := by
  refine ⟨scenario_w, scenario_h, scenario_frameBuffer, ?_⟩
  rw [Draw_eq_loop, scenario_boundIndices, scenario_boundVertices, scenario_currentMvp,
    scenario_afterLookups, scenario_loop, scenario_w, scenario_h, scenario_edges,
    drawLines_three]

/-- Witness of `Draw_cardinality`: the scenario has one triangle. -/
theorem Draw_cardinality_witness :
    (boundIndices scenario).length = 3 * 1 ∧
      (∀ j ∈ boundIndices scenario, j < (boundVertices scenario).length) ∧
      ∃ r' log, Draw scenario = some (r', log) ∧ log.length = 3 * 1 :=
  ⟨by decide, by decide, Draw_cardinality scenario 1 (by decide) (by decide)⟩

/-- C11: idempotent clear.  `Clear` after `Clear` gives the same state as one
`Clear`; after `Clear` every pixel equals the clear colour, the buffer length and
the clear colour are unchanged, and a new renderer has the clear colour opaque
black `(0,0,0,1)`. -/
theorem Clear_idempotent (r : State) :
    Clear (Clear r) = Clear r ∧
    (∀ p ∈ (Clear r).frameBuffer, p = r.clearColor) ∧
    (∀ i, i < r.frameBuffer.length → (Clear r).frameBuffer[i]? = some r.clearColor) ∧
    (Clear r).frameBuffer.length = r.frameBuffer.length ∧
    (Clear r).clearColor = r.clearColor ∧
    (∀ width height : Int, (create width height).clearColor = ⟨0, 0, 0, 1⟩) := by
  refine ⟨?_, ?_, ?_, ?_, rfl, fun _ _ => rfl⟩
  · simp [Clear]
  · intro p hp
    simp only [Clear, List.mem_map] at hp
    obtain ⟨_, _, h⟩ := hp
    exact h.symm
  · intro i hi
    simp [Clear, hi]
  · simp [Clear]

theorem DrawLine_length (r : State) (p1 p2 : vec3) (c : vec4) :
    (DrawLine r p1 p2 c).frameBuffer.length = r.frameBuffer.length := by
  rw [DrawLine_eq_setPixels]; exact setPixels_length c _ r

theorem drawLines_length (calls : List LineCall) :
    ∀ r : State, (drawLines r calls).frameBuffer.length = r.frameBuffer.length := by
  induction calls with
  | nil => intro r; rfl
  | cons c cs ih =>
    intro r
    have := ih (DrawLine r c.p1 c.p2 c.color)
    unfold drawLines at this ⊢
    rw [List.foldl_cons, this, DrawLine_length]

/-- When the body of the outer loop of `Draw` succeeds, it has made the three edge
calls of a triangle whose vertices are in the vertex buffer. -/
theorem Draw.triangle_some (mvp : mat4) (vertices : List Vertex) (indices : List Nat) (i : Nat)
    (r r1 : State) (calls : List LineCall)
    (h : Draw.triangle mvp vertices indices i r = some (r1, calls)) :
    r1 = drawLines r calls ∧ ∃ a b c, a ∈ vertices ∧ b ∈ vertices ∧ c ∈ vertices ∧
      calls = triangleEdges mvp r.w r.h a b c := by
  cases e0 : indices[i * 3]? with
  | none => simp [Draw.triangle, e0] at h
  | some i0 =>
    cases e1 : indices[i * 3 + 1]? with
    | none => simp [Draw.triangle, e0, e1] at h
    | some i1 =>
      cases e2 : indices[i * 3 + 2]? with
      | none => simp [Draw.triangle, e0, e1, e2] at h
      | some i2 =>
        cases ea : vertices[i0]? with
        | none => simp [Draw.triangle, e0, e1, e2, ea] at h
        | some a =>
          cases eb : vertices[i1]? with
          | none => simp [Draw.triangle, e0, e1, e2, ea, eb] at h
          | some b =>
            cases ec : vertices[i2]? with
            | none => simp [Draw.triangle, e0, e1, e2, ea, eb, ec] at h
            | some c =>
              rw [Draw.triangle_of_lookups mvp vertices indices i r i0 i1 i2 a b c e0 e1 e2 ea eb
                ec] at h
              obtain ⟨h1, h2⟩ := Prod.mk.inj (Option.some.inj h)
              exact ⟨by rw [← h1, ← h2], a, b, c, List.getElem?_mem ea, List.getElem?_mem eb,
                List.getElem?_mem ec, h2.symm⟩

/-- Whenever the outer loop of `Draw` succeeds, its final state is the start state
with the newly logged calls made in order, and every logged call has the colour
of a vertex of the buffer. -/
theorem Draw.loop_some (mvp : mat4) (vertices : List Vertex) (indices : List Nat) :
    ∀ (fuel i : Nat) (r : State) (log : List LineCall) (r' : State) (log' : List LineCall),
      Draw.loop mvp vertices indices fuel i r log = some (r', log') →
      ∃ calls, log' = log ++ calls ∧ r' = drawLines r calls ∧
        ∀ call ∈ calls, ∃ v ∈ vertices, call.color = v.color := by
  intro fuel
  induction fuel with
  | zero =>
    intro i r log r' log' h
    simp only [Draw.loop, Option.some.injEq, Prod.mk.injEq] at h
    exact ⟨[], by rw [h.2, List.append_nil], by rw [← h.1]; rfl, by simp⟩
  | succ n ih =>
    intro i r log r' log' h
    unfold Draw.loop at h
    by_cases hi : i < indices.length / 3
    · rw [if_pos hi] at h
      cases ht : Draw.triangle mvp vertices indices i r with
      | none => rw [ht] at h; simp at h
      | some res =>
        obtain ⟨r1, calls1⟩ := res
        rw [ht] at h
        simp only at h
        obtain ⟨hr1, a, b, c, ha, hb, hc, hcalls⟩ :=
          Draw.triangle_some mvp vertices indices i r r1 calls1 ht
        obtain ⟨calls, hlog, hr', hcol⟩ := ih _ _ _ _ _ h
        refine ⟨calls1 ++ calls, by rw [hlog, List.append_assoc], ?_, ?_⟩
        · rw [hr', hr1, drawLines_append]
        · intro call hcall
          rcases List.mem_append.1 hcall with h1 | h2
          · rw [hcalls] at h1
            simp only [triangleEdges, List.mem_cons, List.mem_singleton, List.not_mem_nil,
              or_false] at h1
            rcases h1 with rfl | rfl | rfl
            · exact ⟨a, ha, rfl⟩
            · exact ⟨b, hb, rfl⟩
            · exact ⟨c, hc, rfl⟩
          · exact hcol call h2
    · rw [if_neg hi] at h
      simp only [Option.some.injEq, Prod.mk.injEq] at h
      exact ⟨[], by rw [h.2, List.append_nil], by rw [← h.1]; rfl, by simp⟩

/-- Whenever `Draw` succeeds, its final state is the lookup state with the logged
calls made in order, and every logged call has the colour of a bound vertex. -/
theorem Draw_some (r r' : State) (log : List LineCall) (h : Draw r = some (r', log)) :
    r' = drawLines (afterLookups r) log ∧
      ∀ call ∈ log, ∃ v ∈ boundVertices r, call.color = v.color := by
  rw [Draw_eq_loop] at h
  obtain ⟨calls, hlog, hr', hcol⟩ := Draw.loop_some _ _ _ _ _ _ _ _ _ h
  rw [List.nil_append] at hlog
  subst hlog
  exact ⟨hr', hcol⟩

/-- C16: the pixel buffer size is immutable.  After construction with
non-negative `width`, `height` the renderer has these dimensions and a pixel
buffer of `width * height` entries, and every operation (`SetPixel`, `DrawLine`,
`Clear`, `Draw` when it returns, the uploads, the bind and unbind operations and
`SetUniform`) leaves width, height and the buffer length unchanged. -/
theorem size_immutable (r : State) (width height : Int) (hw : 0 ≤ width) (hh : 0 ≤ height) :
    ((create width height).w = width ∧ (create width height).h = height ∧
      ((create width height).frameBuffer.length : Int) = width * height) ∧
    (∀ x y c, dims (SetPixel r x y c) = dims r) ∧
    (∀ p1 p2 c, dims (DrawLine r p1 p2 c) = dims r) ∧
    dims (Clear r) = dims r ∧
    (∀ r' log, Draw r = some (r', log) → dims r' = dims r) ∧
    (∀ data, dims (UploadVertices r data).2 = dims r) ∧
    (∀ data, dims (UploadIndices r data).2 = dims r) ∧
    (∀ id, dims (BindVertexBuffer r id) = dims r) ∧
    dims (UnbindVertexBuffer r) = dims r ∧
    (∀ id, dims (BindIndexBuffer r id) = dims r) ∧
    dims (UnbindIndexBuffer r) = dims r ∧
    (∀ s m, dims (SetUniform r s m) = dims r) := by
  refine ⟨⟨rfl, rfl, ?_⟩, ?_, ?_, ?_, ?_, fun _ => rfl, fun _ => rfl, fun _ => rfl, rfl,
    fun _ => rfl, rfl, fun _ _ => rfl⟩
  · simp only [create, List.length_replicate]
    exact Int.toNat_of_nonneg (mul_nonneg hw hh)
  · intro x y c
    simp only [dims, SetPixel_w, SetPixel_h, SetPixel_length]
  · intro p1 p2 c
    simp only [dims, DrawLine_w, DrawLine_h, DrawLine_length]
  · simp [dims, Clear]
  · intro r' log h
    obtain ⟨hr', _⟩ := Draw_some r r' log h
    rw [hr']
    simp only [dims, (drawLines_w_h log _).1, (drawLines_w_h log _).2, drawLines_length]
    rfl

/-- Witness of `size_immutable`: a 3x4 renderer has 12 pixels. -/
theorem size_immutable_witness :
    ((0 : Int) ≤ 3 ∧ (0 : Int) ≤ 4) ∧
      ((create 3 4).frameBuffer.length : Int) = 3 * 4 :=
  ⟨by decide, (size_immutable (create 3 4) 3 4 (by decide) (by decide)).1.2.2⟩

theorem SetPixel_getElem? (r : State) (x y : Int) (c : vec4) (i : Nat) :
    (SetPixel r x y c).frameBuffer[i]? = r.frameBuffer[i]? ∨
      (SetPixel r x y c).frameBuffer[i]? = some c := by
  unfold SetPixel
  split_ifs
  · left; rfl
  · left; rfl
  · simp only [List.getElem?_set]
    split_ifs with h1 h2
    · right; rfl
    · left
      subst h1
      exact (List.getElem?_eq_none (not_lt.1 h2)).symm
    · left; rfl

theorem setPixels_getElem? (c : vec4) (ps : List (Int × Int)) :
    ∀ (r : State) (i : Nat), (setPixels r c ps).frameBuffer[i]? = r.frameBuffer[i]? ∨
      (setPixels r c ps).frameBuffer[i]? = some c := by
  induction ps with
  | nil => intro r i; left; rfl
  | cons p ps ih =>
    intro r i
    have h1 := ih (SetPixel r p.1 p.2 c) i
    have h2 := SetPixel_getElem? r p.1 p.2 c i
    unfold setPixels at h1 ⊢
    rw [List.foldl_cons]
    rcases h1 with h1 | h1
    · rw [h1]; exact h2
    · right; exact h1

theorem DrawLine_getElem? (r : State) (p1 p2 : vec3) (c : vec4) (i : Nat) :
    (DrawLine r p1 p2 c).frameBuffer[i]? = r.frameBuffer[i]? ∨
      (DrawLine r p1 p2 c).frameBuffer[i]? = some c := by
  rw [DrawLine_eq_setPixels]; exact setPixels_getElem? c _ r i

theorem drawLines_getElem? (calls : List LineCall) :
    ∀ (r : State) (i : Nat), (drawLines r calls).frameBuffer[i]? = r.frameBuffer[i]? ∨
      ∃ call ∈ calls, (drawLines r calls).frameBuffer[i]? = some call.color := by
  induction calls with
  | nil => intro r i; left; rfl
  | cons c cs ih =>
    intro r i
    have h1 := ih (DrawLine r c.p1 c.p2 c.color) i
    have h2 := DrawLine_getElem? r c.p1 c.p2 c.color i
    unfold drawLines at h1 ⊢
    rw [List.foldl_cons]
    rcases h1 with h1 | ⟨call, hmem, h1⟩
    · rcases h2 with h2 | h2
      · left; rw [h1, h2]
      · right; exact ⟨c, List.mem_cons_self _ _, by rw [h1, h2]⟩
    · right; exact ⟨call, List.mem_cons_of_mem _ hmem, h1⟩

/-- C19: additive single-colour writes.  After `DrawLine(p1, p2, c)` every entry
of the pixel buffer either keeps its value or equals `c`, and the length is
kept; after a `Draw` that returns, every entry either keeps its value or equals
the colour of a vertex of the bound vertex buffer. -/
theorem DrawLine_additive (r : State) (p1 p2 : vec3) (c : vec4) :
    (∀ i : Nat, (DrawLine r p1 p2 c).frameBuffer[i]? = r.frameBuffer[i]? ∨
      (DrawLine r p1 p2 c).frameBuffer[i]? = some c) ∧
    (DrawLine r p1 p2 c).frameBuffer.length = r.frameBuffer.length ∧
    (∀ r' log, Draw r = some (r', log) → ∀ i : Nat,
      r'.frameBuffer[i]? = r.frameBuffer[i]? ∨
        ∃ v ∈ boundVertices r, r'.frameBuffer[i]? = some v.color) := by
  refine ⟨DrawLine_getElem? r p1 p2 c, DrawLine_length r p1 p2 c, ?_⟩
  intro r' log h i
  obtain ⟨hr', hcol⟩ := Draw_some r r' log h
  rcases drawLines_getElem? log (afterLookups r) i with h1 | ⟨call, hmem, h1⟩
  · left; rw [hr', h1]; rfl
  · right
    obtain ⟨v, hv, hvc⟩ := hcol call hmem
    exact ⟨v, hv, by rw [hr', h1, hvc]⟩

/-- C20: `Draw` lookups are in range under index validity.  When every index of
the bound index buffer is smaller than the length of the bound vertex buffer,
`Draw` returns; for every `i < length / 3` (whatever the length, divisible by 3
or not) the index reads at `3i`, `3i+1`, `3i+2` and the three vertex reads are
in range, and the body of the loop takes no out-of-range branch whatever the
matrix and the state are. -/
theorem Draw_in_range (r : State)
    (hvalid : ∀ j ∈ boundIndices r, j < (boundVertices r).length) :
    (∃ r' log, Draw r = some (r', log)) ∧
    ∀ i, i < (boundIndices r).length / 3 →
      (∃ i0 i1 i2, (boundIndices r)[i * 3]? = some i0 ∧ (boundIndices r)[i * 3 + 1]? = some i1 ∧
        (boundIndices r)[i * 3 + 2]? = some i2 ∧ i0 < (boundVertices r).length ∧
        i1 < (boundVertices r).length ∧ i2 < (boundVertices r).length) ∧
      ∀ (mvp : mat4) (s : State),
        Draw.triangle mvp (boundVertices r) (boundIndices r) i s ≠ none := by
  constructor
  · obtain ⟨log, h, _⟩ := Draw_spec r hvalid
    exact ⟨_, log, h⟩
  · intro i hi
    constructor
    · obtain ⟨i0, i1, i2, a, b, c, e0, e1, e2, _, _, _, _⟩ :=
        Draw.triangle_spec mat4.zero (boundVertices r) (boundIndices r) hvalid i hi r
      exact ⟨i0, i1, i2, e0, e1, e2, hvalid _ (List.getElem?_mem e0),
        hvalid _ (List.getElem?_mem e1), hvalid _ (List.getElem?_mem e2)⟩
    · intro mvp s
      obtain ⟨_, _, _, _, _, _, _, _, _, _, _, _, h⟩ :=
        Draw.triangle_spec mvp (boundVertices r) (boundIndices r) hvalid i hi s
      rw [h]
      exact Option.some_ne_none _

theorem scenarioFourIndices_boundIndices : boundIndices scenarioFourIndices = [0, 1, 2, 0] := by
  decide

theorem scenarioFourIndices_boundVertices :
    boundVertices scenarioFourIndices = scenarioVertices := by decide!

/-- Witness of `Draw_in_range`: an index buffer of length 4. -/
theorem Draw_in_range_witness :
    (∀ j ∈ boundIndices scenarioFourIndices, j < (boundVertices scenarioFourIndices).length) ∧
      ∃ r' log, Draw scenarioFourIndices = some (r', log) :=
  ⟨by decide, (Draw_in_range scenarioFourIndices (by decide)).1⟩


/-! ### Binding slots -/

theorem slotKnown_zero (hs : List Nat) : slotKnown hs 0 := Or.inl rfl

theorem slotKnown_append (hs : List Nat) (a slot : Nat) (h : slotKnown hs slot) :
    slotKnown (hs ++ [a]) slot := by
  rcases h with h | h
  · exact Or.inl h
  · exact Or.inr (List.mem_append_left _ h)

/-- One call given a known handle keeps both binding slots known. -/
theorem Op.run_slotKnown (s : State × List Nat) (op : Op)
    (hv : slotKnown s.2 s.1.activeVertexBuffer) (hi : slotKnown s.2 s.1.activeIndexBuffer)
    (hop : op.bindsKnown s.2 = true) :
    slotKnown (Op.run s op).2 (Op.run s op).1.activeVertexBuffer ∧
      slotKnown (Op.run s op).2 (Op.run s op).1.activeIndexBuffer := by
  obtain ⟨r, hs⟩ := s
  cases op with
  | uploadVertices data => exact ⟨slotKnown_zero _, slotKnown_append _ _ _ hi⟩
  | uploadIndices data => exact ⟨slotKnown_append _ _ _ hv, slotKnown_zero _⟩
  | bindVertexBuffer id =>
    simp only [Op.bindsKnown, decide_eq_true_eq] at hop
    exact ⟨hop, hi⟩
  | unbindVertexBuffer => exact ⟨slotKnown_zero _, hi⟩
  | bindIndexBuffer id =>
    simp only [Op.bindsKnown, decide_eq_true_eq] at hop
    exact ⟨hv, hop⟩
  | unbindIndexBuffer => exact ⟨hv, slotKnown_zero _⟩

theorem foldl_run_slotKnown (ops : List Op) :
    ∀ s : State × List Nat, slotKnown s.2 s.1.activeVertexBuffer →
      slotKnown s.2 s.1.activeIndexBuffer → bindsKnown s ops = true →
      slotKnown (ops.foldl Op.run s).2 (ops.foldl Op.run s).1.activeVertexBuffer ∧
        slotKnown (ops.foldl Op.run s).2 (ops.foldl Op.run s).1.activeIndexBuffer := by
  induction ops with
  | nil => intro s hv hi _; exact ⟨hv, hi⟩
  | cons op ops ih =>
    intro s hv hi hb
    simp only [bindsKnown, Bool.and_eq_true] at hb
    obtain ⟨h1, h2⟩ := Op.run_slotKnown s op hv hi hb.1
    exact ih (Op.run s op) h1 h2 hb.2

/-- C13 (as amended): in every state reached from a fresh renderer by a sequence of
`UploadVertices`, `UploadIndices`, `BindVertexBuffer`, `UnbindVertexBuffer`,
`BindIndexBuffer` and `UnbindIndexBuffer` calls in which every bind call is given
zero or a handle returned by an earlier upload of the sequence, each binding slot
holds zero or a handle previously returned by an upload. -/
theorem binding_slots_known (width height : Int) (ops : List Op)
    (h : bindsKnown (create width height, []) ops = true) :
    slotKnown (runOps (create width height) ops).2
        (runOps (create width height) ops).1.activeVertexBuffer ∧
      slotKnown (runOps (create width height) ops).2
        (runOps (create width height) ops).1.activeIndexBuffer :=
  foldl_run_slotKnown ops (create width height, []) (slotKnown_zero _) (slotKnown_zero _) h

/-- Witness of `binding_slots_known`: two uploads, then both handles bound. -/
theorem binding_slots_known_witness :
    bindsKnown (create 4 4, [])
        [Op.uploadVertices [], Op.uploadIndices [0, 1, 2], Op.bindVertexBuffer 1,
          Op.bindIndexBuffer 2] = true ∧
      slotKnown (runOps (create 4 4) [Op.uploadVertices [], Op.uploadIndices [0, 1, 2],
          Op.bindVertexBuffer 1, Op.bindIndexBuffer 2]).2
        (runOps (create 4 4) [Op.uploadVertices [], Op.uploadIndices [0, 1, 2],
          Op.bindVertexBuffer 1, Op.bindIndexBuffer 2]).1.activeVertexBuffer :=
  ⟨by decide, (binding_slots_known 4 4 _ (by decide)).1⟩

/-- C13 fails as stated: `BindVertexBuffer(42)` on a fresh renderer, where no upload
has returned any handle, leaves 42 in the vertex binding slot. -/
theorem bind_unknown_handle_counterexample :
    (runOps (create 4 4) [Op.bindVertexBuffer 42]).1.activeVertexBuffer = 42 ∧
      (runOps (create 4 4) [Op.bindVertexBuffer 42]).2 = [] ∧
      ¬ slotKnown (runOps (create 4 4) [Op.bindVertexBuffer 42]).2
        (runOps (create 4 4) [Op.bindVertexBuffer 42]).1.activeVertexBuffer := by
  refine ⟨rfl, rfl, ?_⟩
  show ¬ slotKnown [] 42
  simp [slotKnown]


/-! ### Missing uniforms and missing buffers -/

theorem mat4.mulVec_zero_right (m : mat4) : m.mulVec vec4.zero = vec4.zero := by
  simp [mat4.mulVec, vec4.zero, vec4.smul, vec4.add]

theorem mat4.mul_zero (m : mat4) : m.mul mat4.zero = mat4.zero := by
  simp only [mat4.mul, mat4.zero, mat4.mulVec_zero_right]

/-- An index buffer with no complete triple: `Draw` makes no call. -/
theorem Draw_of_short_indices (r : State) (h : (boundIndices r).length < 3) :
    Draw r = some (afterLookups r, []) ∧ (afterLookups r).frameBuffer = r.frameBuffer := by
  refine ⟨?_, rfl⟩
  rw [Draw_eq_loop, Nat.div_eq_of_lt h]
  rfl

/-- A bound index handle with no stored buffer reads as the empty buffer. -/
theorem Draw_of_missing_indices (r : State) (h : r.indicesMap r.activeIndexBuffer = none) :
    Draw r = some (afterLookups r, []) ∧ (afterLookups r).frameBuffer = r.frameBuffer := by
  apply Draw_of_short_indices
  simp [boundIndices, mapIndex, h]

theorem indicesOnly_boundIndices : boundIndices indicesOnly = [0, 1, 2] := by decide

theorem indicesOnly_boundVertices : boundVertices indicesOnly = [] := by decide

theorem Draw.loop_no_vertices (mvp : mat4) (r : State) :
    Draw.loop mvp [] [0, 1, 2] ([0, 1, 2].length / 3) 0 r [] = none := by
  show Draw.loop mvp [] [0, 1, 2] (0 + 1) 0 r [] = none
  unfold Draw.loop
  rw [if_pos (by decide)]
  rfl

/-- C12, evaluated at the failing input: with indices `[0, 1, 2]` uploaded and
bound and no vertex buffer bound (slot zero, nothing stored under it), the bound
vertex buffer reads as empty and `Draw` makes an out-of-range access instead of
drawing zero triangles. -/
theorem Draw_unbound_vertices_out_of_range :
    indicesOnly.activeVertexBuffer = 0 ∧ indicesOnly.verticesMap 0 = none ∧
      boundVertices indicesOnly = [] ∧ boundIndices indicesOnly = [0, 1, 2] ∧
      Draw indicesOnly = none := by
  refine ⟨rfl, rfl, indicesOnly_boundVertices, indicesOnly_boundIndices, ?_⟩
  rw [Draw_eq_loop, indicesOnly_boundIndices, indicesOnly_boundVertices]
  exact Draw.loop_no_vertices _ _


end CPURenderer
